import Mathlib

/-!
Verification development for terratools lookup_tables.py.

The table data model and the algorithms of SeismicLookupTable are embedded
shallowly over rationals.  Rows are the flat parsed table (pressure,
temperature and eight data columns); get_vals, the constructor reshape
loop, interp_points, the field registry, harmonic_mean_comp and
linear_interp_1d are translated from the source.  numpy indexing with a
possibly negative index is modelled by pyGet?, numpy min, max, unique and
argmin-style nearest lookup by listMin, listMax, uniqSorted and
nearestIdx.  Fallible code (index errors, key errors, broadcast errors)
returns Option or Except.
-/

namespace Terra

/-- Domain warnings printed by get_vals when the query lies outside the
table range (pressure below or above, temperature below or above). -/
inductive Warn
  | pLow
  | pHigh
  | tLow
  | tHigh
deriving DecidableEq

/-- One parsed row of the lookup table: pressure (column 0), temperature
(column 1) and the eight data columns 2..9
(vp, vs, vp_ani, vs_ani, vphi, density, qs, t_sol). -/
structure Row where
  p : ℚ
  t : ℚ
  c : Fin 8 → ℚ

/-- Result of get_vals: the domain warnings that were printed, followed by
the six interpolated values Vp, Vs, Vp_an, Vs_an, Vphi, Dens. -/
structure GV where
  warns : List Warn
  vp : ℚ
  vs : ℚ
  vpAn : ℚ
  vsAn : ℚ
  vphi : ℚ
  dens : ℚ
deriving DecidableEq

/-- Python list indexing l[i]: a negative index counts from the end, an
index out of range raises (modelled as none). -/
def pyGet? (l : List ℚ) (i : ℤ) : Option ℚ :=
  if i < 0 then
    if 0 ≤ i + l.length then l.get? (i + l.length).toNat else none
  else l.get? i.toNat

/-- numpy min over a one dimensional array (0 on the empty list, where the
real code would raise before reaching any use of it). -/
def listMin : List ℚ → ℚ
  | [] => 0
  | a :: l => l.foldl min a

/-- numpy max over a one dimensional array. -/
def listMax : List ℚ → ℚ
  | [] => 0
  | a :: l => l.foldl max a

/-- numpy unique: the sorted list of distinct values. -/
def uniqSorted (l : List ℚ) : List ℚ :=
  (l.insertionSort (· ≤ ·)).dedup

/-- The first index of the entry of l nearest to v:
np.where(np.abs(l - v) == np.min(np.abs(l - v)))[0][0]. -/
def nearestIdx (l : List ℚ) (v : ℚ) : ℕ :=
  l.findIdx fun x => decide (|x - v| = listMin (l.map fun y => |y - v|))

/-- Modelled from the spec: norm_vals of terratools.utils is imported by
lookup_tables.py but its source file is not in this tree.  Spec section
4.2: the normalized fraction is (value - low) / (high - low), and is 0
when high = low (degenerate clipped axis, no NaN). -/
def norm_vals (value high low : ℚ) : ℚ :=
  if high = low then 0 else (value - low) / (high - low)

/-- Modelled from the spec: int_linear of terratools.utils is imported by
lookup_tables.py but its source file is not in this tree.  Spec section
4.2: bilinear blend, first along temperature at both pressure bounds,
then along pressure. -/
def int_linear (vll vlh vhl vhh tfrac pfrac : ℚ) : ℚ :=
  let a := vll + (vlh - vll) * tfrac
  let b := vhl + (vhh - vhl) * tfrac
  a + (b - a) * pfrac

/-- The pressure bound finding step of get_vals (lines 95-109): clip below
the minimum (printing an error message) or above the maximum (printing a
warning), otherwise locate the first row whose pressure is nearest to
pval and step one pressure block (self.pstep rows) up or down.
Returns (warning, lower bound pl, upper bound pu). -/
def pbound (rows : List Row) (pval : ℚ) : Option (Option Warn × ℚ × ℚ) :=
  if pval < listMin (rows.map (·.p)) then
    some (some .pLow, listMin (rows.map (·.p)), listMin (rows.map (·.p)))
  else if listMax (rows.map (·.p)) < pval then
    some (some .pHigh, listMax (rows.map (·.p)), listMax (rows.map (·.p)))
  else
    match pyGet? (rows.map (·.p)) (nearestIdx (rows.map (·.p)) pval) with
    | none => none
    | some pe =>
      if pe - pval < 0 then
        match pyGet? (rows.map (·.p))
            ((nearestIdx (rows.map (·.p)) pval : ℤ) +
              (uniqSorted (rows.map (·.t))).length) with
        | none => none
        | some pu => some (none, pe, pu)
      else
        match pyGet? (rows.map (·.p))
            ((nearestIdx (rows.map (·.p)) pval : ℤ) -
              (uniqSorted (rows.map (·.t))).length) with
        | none => none
        | some pl => some (none, pl, pe)

/-- The temperature bound finding step of get_vals (lines 115-129): same
shape as pbound but stepping a single row up or down. -/
def tbound (rows : List Row) (tval : ℚ) : Option (Option Warn × ℚ × ℚ) :=
  if tval < listMin (rows.map (·.t)) then
    some (some .tLow, listMin (rows.map (·.t)), listMin (rows.map (·.t)))
  else if listMax (rows.map (·.t)) < tval then
    some (some .tHigh, listMax (rows.map (·.t)), listMax (rows.map (·.t)))
  else
    match pyGet? (rows.map (·.t)) (nearestIdx (rows.map (·.t)) tval) with
    | none => none
    | some te =>
      if te - tval < 0 then
        match pyGet? (rows.map (·.t)) ((nearestIdx (rows.map (·.t)) tval : ℤ) + 1) with
        | none => none
        | some tu => some (none, te, tu)
      else
        match pyGet? (rows.map (·.t)) ((nearestIdx (rows.map (·.t)) tval : ℤ) - 1) with
        | none => none
        | some tl => some (none, tl, te)

/-- The six bilinear blends of get_vals (lines 144-157), given the four
corner rows, the two warnings and the two normalized fractions. -/
def gvOf (rll rlu rul ruu : Row) (pw tw : Option Warn) (tn pn : ℚ) : GV :=
  { warns := pw.toList ++ tw.toList
    vp := int_linear (rll.c 0) (rlu.c 0) (rul.c 0) (ruu.c 0) tn pn
    vs := int_linear (rll.c 1) (rlu.c 1) (rul.c 1) (ruu.c 1) tn pn
    vpAn := int_linear (rll.c 2) (rlu.c 2) (rul.c 2) (ruu.c 2) tn pn
    vsAn := int_linear (rll.c 3) (rlu.c 3) (rul.c 3) (ruu.c 3) tn pn
    vphi := int_linear (rll.c 4) (rlu.c 4) (rul.c 4) (ruu.c 4) tn pn
    dens := int_linear (rll.c 5) (rlu.c 5) (rul.c 5) (ruu.c 5) tn pn }

/-- get_vals (lines 81-157): find pressure and temperature bounds, locate
the four corner rows (the original code collects the matching row indices
with np.intersect1d; on a well formed table exactly one row matches each
corner, so the first match is taken, and a missing corner is modelled as
failure), normalise against the bounds and blend bilinearly for each of
the six returned columns. -/
def getVals (rows : List Row) (pval tval : ℚ) : Option GV :=
  if rows.isEmpty then none
  else
    match pbound rows pval, tbound rows tval with
    | some (pw, pl, pu), some (tw, tl, tu) =>
      match rows.find? (fun r => decide (r.p = pl ∧ r.t = tl)),
            rows.find? (fun r => decide (r.p = pl ∧ r.t = tu)),
            rows.find? (fun r => decide (r.p = pu ∧ r.t = tl)),
            rows.find? (fun r => decide (r.p = pu ∧ r.t = tu)) with
      | some rll, some rlu, some rul, some ruu =>
        some (gvOf rll rlu rul ruu pw tw (norm_vals tval tu tl) (norm_vals pval pu pl))
      | _, _, _, _ => none
    | _, _ => none

/-- A complete rectangular table laid out as the input format requires:
rows grouped by pressure block in axis order, each block listing the
temperatures in axis order, with sample function f giving the eight data
columns at each grid node. -/
def mkTable (ps ts : List ℚ) (f : ℚ → ℚ → Fin 8 → ℚ) : List Row :=
  ps.flatMap fun p => ts.map fun t => ⟨p, t, f p t⟩

/-- The constructed table object: the flat rows, the unique sorted axes
and the per field grids (one list of pressure block columns per data
column). -/
structure Table where
  rows : List Row
  pres : List ℚ
  temp : List ℚ
  grids : List (List (List ℚ))

/-- The slice self.table[i*pstep : (i+1)*pstep, column] taken by the
constructor loop for pressure block i. -/
def sliceCol (rows : List Row) (m i : ℕ) (k : Fin 8) : List ℚ :=
  ((rows.drop (i * m)).take m).map fun r => r.c k

/-- The numpy assignment Vp[:,i] = slice: succeeds when the slice has
exactly m entries, broadcasts a single entry to the whole column, and
raises a shape error (none) otherwise. -/
def colAssign (m : ℕ) (col : List ℚ) : Option (List ℚ) :=
  if col.length = m then some col
  else
    match col with
    | [x] => some (List.replicate m x)
    | _ => none

/-- The constructor loop for one data column: one grid column per unique
pressure value. -/
def buildGrid (rows : List Row) (m n : ℕ) (k : Fin 8) : Option (List (List ℚ)) :=
  (List.range n).mapM fun i => colAssign m (sliceCol rows m i k)

/-- Modelled from the spec: construction of a scipy.interpolate.interp2d
object (external library, not part of this repository).  With the
default linear kind the underlying fitpack routine requires at least two
sample points along each axis (the (mx>kx) and (my>ky) checks); with
fewer points the constructor raises and aborts the caller. -/
def interp2dNew (xs ys : List ℚ) (grid : List (List ℚ)) :
    Option (List ℚ × List ℚ × List (List ℚ)) :=
  if 2 ≤ xs.length ∧ 2 ≤ ys.length then some (xs, ys, grid) else none

/-- SeismicLookupTable construction from parsed rows (lines 23-71 of
init, with file parsing out of scope): extract the unique sorted axes,
de-interleave every data column into a grid, then build the eight
interp2d interpolator objects of lines 63-71; a failing block assignment
or a failing interpolator construction aborts the build with no table
returned. -/
def load (rows : List Row) : Option Table :=
  if rows.isEmpty then none
  else
    match (List.finRange 8).mapM
        (buildGrid rows (uniqSorted (rows.map (·.t))).length
          (uniqSorted (rows.map (·.p))).length) with
    | none => none
    | some gs =>
      match (List.finRange 8).mapM
          (fun k => interp2dNew (uniqSorted (rows.map (·.p)))
            (uniqSorted (rows.map (·.t))) (gs.getD k.val [])) with
      | none => none
      | some _ =>
        some ⟨rows, uniqSorted (rows.map (·.p)), uniqSorted (rows.map (·.t)), gs⟩

/-- The str.lower() method: lower case every character (written over the
character list so that it evaluates by kernel reduction). -/
def lower (s : String) : String :=
  ⟨s.data.map Char.toLower⟩

/-- The fields registry lookup self.fields[field.lower()] (lines 58-60):
the fixed mapping from lower case field name to column index, grid and
unit label; a name not in the registry raises a key error (none). -/
def lookupField (tbl : Table) (field : String) : Option (ℕ × List (List ℚ) × String) :=
  let s := lower field
  if s = "vp" then some (2, tbl.grids.getD 0 [], "km/s")
  else if s = "vs" then some (3, tbl.grids.getD 1 [], "km/s")
  else if s = "vp_ani" then some (4, tbl.grids.getD 2 [], "km/s")
  else if s = "vs_ani" then some (5, tbl.grids.getD 3 [], "km/s")
  else if s = "vphi" then some (6, tbl.grids.getD 4 [], "km/s")
  else if s = "density" then some (7, tbl.grids.getD 5 [], "$kg/m^3$")
  else if s = "qs" then some (8, tbl.grids.getD 6 [], "Hz")
  else if s = "t_sol" then some (9, tbl.grids.getD 7 [], "K")
  else none

/-- Clamp v into the closed range [lo, hi]. -/
def clampQ (v lo hi : ℚ) : ℚ := max lo (min v hi)

/-- Index of the cell of a sorted axis containing v: the greatest i with
axis[i] below the next node, walking the axis linearly. -/
def cellIdx : List ℚ → ℚ → ℕ
  | [], _ => 0
  | [_], _ => 0
  | _ :: y :: rest, v => if v < y then 0 else cellIdx (y :: rest) v + 1

/-- Modelled from the spec: a scipy.interpolate.interp2d linear query
(external library, not part of this repository).  The grid holds one
column per pressure axis entry, each column listing the values along the
temperature axis.  Out of range queries are clamped to the nearest edge,
in range queries are interpolated bilinearly. -/
def sciQuery (xs ys : List ℚ) (grid : List (List ℚ)) (x y : ℚ) : ℚ :=
  let xc := clampQ x (xs.headD 0) (xs.getLastD 0)
  let yc := clampQ y (ys.headD 0) (ys.getLastD 0)
  let i := cellIdx xs xc
  let j := cellIdx ys yc
  let x0 := xs.getD i 0
  let x1 := xs.getD (i + 1) x0
  let y0 := ys.getD j 0
  let y1 := ys.getD (j + 1) y0
  let fx := if x1 = x0 then 0 else (xc - x0) / (x1 - x0)
  let fy := if y1 = y0 then 0 else (yc - y0) / (y1 - y0)
  let z : ℕ → ℕ → ℚ := fun a b => (grid.getD a []).getD b 0
  int_linear (z i j) (z i (j + 1)) (z (i + 1) j) (z (i + 1) (j + 1)) fy fx

/-- A pressures or temperatures argument of interp_points: a bare int or
float scalar, or an indexable sequence. -/
inductive PyIn
  | num (q : ℚ)
  | seq (l : List ℚ)

/-- The promotion press = [press] if type(press)==int or
type(press)==float else press (line 190). -/
def promote : PyIn → List ℚ
  | .num q => [q]
  | .seq l => l

/-- Errors surfaced by interp_points: a field name missing from the
registry (KeyError) and an index beyond the end of the temperature
sequence (IndexError). -/
inductive TErr
  | unknownField
  | indexOutOfRange
deriving DecidableEq

deriving instance DecidableEq for Except

/-- interp_points (lines 178-200): promote scalar arguments, build the
interpolator for the requested field and evaluate it at each aligned
pair (press[i], temps[i]) for i below len(press). -/
def interp_points (tbl : Table) (press temps : PyIn) (field : String) :
    Except TErr (List ℚ) :=
  let ps := promote press
  let ts := promote temps
  match lookupField tbl field with
  | none => .error .unknownField
  | some (_, grid, _) =>
    (List.range ps.length).mapM fun i =>
      match ts.get? i with
      | none => .error .indexOutOfRange
      | some t => .ok (sciQuery tbl.pres tbl.temp grid (ps.getD i 0) t)

/-- harmonic_mean_comp (lines 265-285): the three component mechanical
mixture 1 / ((1/bas)*bas_fr + (1/lhz)*lhz_fr + (1/hzb)*hzb_fr). -/
def harmonic_mean_comp (bas lhz hzb bas_fr lhz_fr hzb_fr : ℚ) : ℚ :=
  let m1 := (1 / bas) * bas_fr
  let m2 := (1 / lhz) * lhz_fr
  let m3 := (1 / hzb) * hzb_fr
  1 / (m1 + m2 + m3)

/-- A values argument of linear_interp_1d: a bare Python float (which has
no flatten attribute), a numpy scalar (whose flatten gives a one element
array) or a numpy array. -/
inductive PyNum
  | pyfloat (q : ℚ)
  | npscalar (q : ℚ)
  | nparr (l : List ℚ)

/-- The call vals.flatten() on line 298: a bare Python float raises
AttributeError (none), a numpy scalar flattens to a one element array, an
array flattens to itself (one dimensional data). -/
def flattenPy : PyNum → Option (List ℚ)
  | .pyfloat _ => none
  | .npscalar q => some [q]
  | .nparr l => some l

/-- Modelled from the spec: a scipy.interpolate.interp1d linear
interpolant through (c1, a) and (c2, b) with extrapolation, evaluated
elementwise (external library, not part of this repository). -/
def interp1dAt (a b : List ℚ) (c1 c2 cnew : ℚ) : List ℚ :=
  a.zipWith (fun x y => x + (y - x) * ((cnew - c1) / (c2 - c1))) b

/-- linear_interp_1d (lines 287-302): flatten both value sets (raising if
either is a bare float), require equal lengths (a ragged pair raises when
numpy builds the stacked array) and interpolate linearly in the
composition parameter with unbounded extrapolation. -/
def linear_interp_1d (v1 v2 : PyNum) (c1 c2 cnew : ℚ) : Option (List ℚ) :=
  match flattenPy v1, flattenPy v2 with
  | some a, some b =>
    if a.length = b.length then some (interp1dAt a b c1 c2 cnew) else none
  | _, _ => none

/-- Sample data of the section 8 scenario: axes P = 1, 2, 3 and
T = 100, 200, 300, vp equal to 4.0, 4.2, 4.4, 4.6 at the four corners
(1,100), (1,200), (2,100), (2,200) and 0 elsewhere, every other column 0. -/
def f9 (p t : ℚ) (k : Fin 8) : ℚ :=
  if k = 0 then
    if p = 1 ∧ t = 100 then 4
    else if p = 1 ∧ t = 200 then 21 / 5
    else if p = 2 ∧ t = 100 then 22 / 5
    else if p = 2 ∧ t = 200 then 23 / 5
    else 0
  else 0

/-- The nine rows of the section 8 scenario table. -/
def rows9 : List Row := mkTable [1, 2, 3] [100, 200, 300] f9

/-- The loaded scenario table. -/
def tbl9 : Table := (load rows9).getD ⟨[], [], [], []⟩

/-- Five rows whose count (5) is not a multiple of the unique
temperature count (2): two full pressure blocks for p = 1 and p = 2 over
temperatures 100 and 200, followed by a short one row block for p = 3
(which the numpy column assignment broadcasts).  Both axes have at least
two unique values, so the interp2d constructions succeed as well. -/
def rows5 : List Row :=
  [⟨1, 100, fun _ => 0⟩, ⟨1, 200, fun _ => 0⟩,
   ⟨2, 100, fun _ => 0⟩, ⟨2, 200, fun _ => 0⟩,
   ⟨3, 100, fun _ => 0⟩]


/-- The eight lower case names of the field registry. -/
def fieldNames : List String :=
  ["vp", "vs", "vp_ani", "vs_ani", "vphi", "density", "qs", "t_sol"]

/-! ## Helper lemmas -/

theorem zipWith_left_eq (f : ℚ → ℚ → ℚ) (hf : ∀ x y, f x y = x) :
    ∀ (a b : List ℚ), a.length = b.length → a.zipWith f b = a := by
  intro a
  induction a with
  | nil => intro b _; rfl
  | cons x xs ih =>
    intro b h
    cases b with
    | nil => exact absurd h (by simp)
    | cons y ys =>
      simp only [List.zipWith_cons_cons, hf]
      rw [ih ys (by simpa using h)]

theorem zipWith_right_eq (f : ℚ → ℚ → ℚ) (hf : ∀ x y, f x y = y) :
    ∀ (a b : List ℚ), a.length = b.length → a.zipWith f b = b := by
  intro a
  induction a with
  | nil => intro b h; cases b with
    | nil => rfl
    | cons y ys => exact absurd h (by simp)
  | cons x xs ih =>
    intro b h
    cases b with
    | nil => exact absurd h (by simp)
    | cons y ys =>
      simp only [List.zipWith_cons_cons, hf]
      rw [ih ys (by simpa using h)]

/-! ## Order and list helper lemmas -/

theorem foldl_min_le_init (l : List ℚ) (a : ℚ) : l.foldl min a ≤ a := by
  induction l generalizing a with
  | nil => exact le_refl a
  | cons b t ih => exact le_trans (ih (min a b)) (min_le_left a b)

theorem foldl_min_le_mem : ∀ (l : List ℚ) (a x : ℚ), x ∈ l → l.foldl min a ≤ x := by
  intro l
  induction l with
  | nil => intro a x h; exact absurd h (List.not_mem_nil x)
  | cons b t ih =>
    intro a x h
    rcases List.mem_cons.mp h with rfl | hx
    · exact le_trans (foldl_min_le_init t (min a x)) (min_le_right a x)
    · exact ih (min a b) x hx

theorem foldl_min_mem : ∀ (l : List ℚ) (a : ℚ), l.foldl min a = a ∨ l.foldl min a ∈ l := by
  intro l
  induction l with
  | nil => intro a; exact Or.inl rfl
  | cons b t ih =>
    intro a
    rcases ih (min a b) with h | h
    · rw [List.foldl_cons, h]
      rcases min_choice a b with h2 | h2
      · exact Or.inl h2
      · refine Or.inr ?_
        rw [h2]
        exact List.mem_cons_self b t
    · exact Or.inr (List.mem_cons_of_mem b h)

theorem listMin_le (l : List ℚ) (x : ℚ) (h : x ∈ l) : listMin l ≤ x := by
  cases l with
  | nil => exact absurd h (List.not_mem_nil x)
  | cons a t =>
    show t.foldl min a ≤ x
    rcases List.mem_cons.mp h with rfl | hx
    · exact foldl_min_le_init t x
    · exact foldl_min_le_mem t a x hx

theorem listMin_mem (l : List ℚ) (h : l ≠ []) : listMin l ∈ l := by
  cases l with
  | nil => exact absurd rfl h
  | cons a t =>
    show t.foldl min a ∈ a :: t
    rcases foldl_min_mem t a with h2 | h2
    · rw [h2]
      exact List.mem_cons_self a t
    · exact List.mem_cons_of_mem a h2

theorem foldl_max_ge_init (l : List ℚ) (a : ℚ) : a ≤ l.foldl max a := by
  induction l generalizing a with
  | nil => exact le_refl a
  | cons b t ih => exact le_trans (le_max_left a b) (ih (max a b))

theorem foldl_max_ge_mem : ∀ (l : List ℚ) (a x : ℚ), x ∈ l → x ≤ l.foldl max a := by
  intro l
  induction l with
  | nil => intro a x h; exact absurd h (List.not_mem_nil x)
  | cons b t ih =>
    intro a x h
    rcases List.mem_cons.mp h with rfl | hx
    · exact le_trans (le_max_right a x) (foldl_max_ge_init t (max a x))
    · exact ih (max a b) x hx

theorem foldl_max_mem : ∀ (l : List ℚ) (a : ℚ), l.foldl max a = a ∨ l.foldl max a ∈ l := by
  intro l
  induction l with
  | nil => intro a; exact Or.inl rfl
  | cons b t ih =>
    intro a
    rcases ih (max a b) with h | h
    · rw [List.foldl_cons, h]
      rcases max_choice a b with h2 | h2
      · exact Or.inl h2
      · refine Or.inr ?_
        rw [h2]
        exact List.mem_cons_self b t
    · exact Or.inr (List.mem_cons_of_mem b h)

theorem listMax_ge (l : List ℚ) (x : ℚ) (h : x ∈ l) : x ≤ listMax l := by
  cases l with
  | nil => exact absurd h (List.not_mem_nil x)
  | cons a t =>
    show x ≤ t.foldl max a
    rcases List.mem_cons.mp h with rfl | hx
    · exact foldl_max_ge_init t x
    · exact foldl_max_ge_mem t a x hx

theorem listMax_mem (l : List ℚ) (h : l ≠ []) : listMax l ∈ l := by
  cases l with
  | nil => exact absurd rfl h
  | cons a t =>
    show t.foldl max a ∈ a :: t
    rcases foldl_max_mem t a with h2 | h2
    · rw [h2]
      exact List.mem_cons_self a t
    · exact List.mem_cons_of_mem a h2

theorem listMin_congr (l1 l2 : List ℚ) (h1 : l1 ≠ []) (h2 : l2 ≠ [])
    (h : ∀ x, x ∈ l1 ↔ x ∈ l2) : listMin l1 = listMin l2 :=
  le_antisymm (listMin_le l1 _ ((h _).mpr (listMin_mem l2 h2)))
    (listMin_le l2 _ ((h _).mp (listMin_mem l1 h1)))

theorem getLastD_indep : ∀ (l : List ℚ) (d1 d2 : ℚ), l ≠ [] → l.getLastD d1 = l.getLastD d2 := by
  intro l
  cases l with
  | nil => intro d1 d2 h; exact absurd rfl h
  | cons a t =>
    intro d1 d2 _
    rw [List.getLastD_cons, List.getLastD_cons]

theorem getLastD_mem_gen : ∀ (l : List ℚ) (d : ℚ), l ≠ [] → l.getLastD d ∈ l := by
  intro l
  induction l with
  | nil => intro d h; exact absurd rfl h
  | cons a t ih =>
    intro d _
    rw [List.getLastD_cons]
    cases t with
    | nil => exact List.mem_cons_self a []
    | cons b u => exact List.mem_cons_of_mem a (ih a (by simp))

theorem sorted_headD_le (l : List ℚ) (hs : l.Sorted (· < ·)) (x : ℚ)
    (h : x ∈ l) : l.headD 0 ≤ x := by
  cases l with
  | nil => exact absurd h (List.not_mem_nil x)
  | cons a t =>
    rcases List.mem_cons.mp h with rfl | hx
    · exact le_refl x
    · exact le_of_lt ((List.sorted_cons.mp hs).1 x hx)

theorem sorted_le_getLastD : ∀ (l : List ℚ), l.Sorted (· < ·) →
    ∀ x ∈ l, x ≤ l.getLastD 0 := by
  intro l
  induction l with
  | nil => intro _ x h; exact absurd h (List.not_mem_nil x)
  | cons a t ih =>
    intro hs x h
    rw [List.getLastD_cons]
    rcases List.mem_cons.mp h with rfl | hx
    · cases t with
      | nil => exact le_refl x
      | cons b u =>
        exact le_of_lt
          ((List.sorted_cons.mp hs).1 _ (getLastD_mem_gen (b :: u) x (by simp)))
    · calc x ≤ t.getLastD 0 := ih (List.sorted_cons.mp hs).2 x hx
        _ = t.getLastD a := getLastD_indep t 0 a (List.ne_nil_of_mem hx)

theorem getD_eq_get (l : List ℚ) (i : ℕ) (hi : i < l.length) :
    l.getD i 0 = l.get ⟨i, hi⟩ := by
  rw [List.getD_eq_get? l i, List.get?_eq_get hi]
  rfl

theorem sorted_getD_lt (l : List ℚ) (hs : l.Sorted (· < ·)) (i j : ℕ)
    (hij : i < j) (hj : j < l.length) : l.getD i 0 < l.getD j 0 := by
  have hi : i < l.length := lt_trans hij hj
  rw [getD_eq_get l i hi, getD_eq_get l j hj]
  exact List.pairwise_iff_get.mp hs ⟨i, hi⟩ ⟨j, hj⟩ hij

theorem getD_mem (l : List ℚ) (i : ℕ) (hi : i < l.length) : l.getD i 0 ∈ l := by
  rw [getD_eq_get l i hi]
  exact List.get_mem l i hi

theorem pyGet?_nat (l : List ℚ) (n : ℕ) : pyGet? l (n : ℤ) = l.get? n := by
  unfold pyGet?
  rw [if_neg (not_lt.mpr (Int.ofNat_nonneg n))]
  simp

theorem pyGet?_negIdx (l : List ℚ) (k : ℕ) (hk : k < l.length) :
    pyGet? l ((k : ℤ) - l.length) = l.get? k := by
  unfold pyGet?
  have hneg : (k : ℤ) - l.length < 0 := by omega
  rw [if_pos hneg, if_pos (by omega)]
  congr 1
  omega

theorem findIdx_eq_of (p : ℚ → Bool) :
    ∀ (l : List ℚ) (n : ℕ), n < l.length → p (l.getD n 0) = true →
      (∀ i, i < n → p (l.getD i 0) = false) → l.findIdx p = n := by
  intro l
  induction l with
  | nil => intro n hn _ _; exact absurd hn (by simp)
  | cons a t ih =>
    intro n hn hp hlt
    cases n with
    | zero =>
      rw [List.findIdx_cons]
      rw [show (a :: t).getD 0 0 = a from rfl] at hp
      rw [hp]
      rfl
    | succ m =>
      have ha : p a = false := by
        have := hlt 0 (Nat.succ_pos m)
        rwa [show (a :: t).getD 0 0 = a from rfl] at this
      rw [List.findIdx_cons, ha]
      have hm : t.findIdx p = m := by
        refine ih m (by simpa using hn) ?_ ?_
        · rwa [show (a :: t).getD (m + 1) 0 = t.getD m 0 from rfl] at hp
        · intro i hi
          have := hlt (i + 1) (by omega)
          rwa [show (a :: t).getD (i + 1) 0 = t.getD i 0 from rfl] at this
      simp [hm]

theorem mem_uniqSorted (l : List ℚ) (x : ℚ) : x ∈ uniqSorted l ↔ x ∈ l := by
  unfold uniqSorted
  rw [List.mem_dedup]
  exact (List.perm_insertionSort (· ≤ ·) l).mem_iff

theorem uniqSorted_sorted (l : List ℚ) : (uniqSorted l).Sorted (· < ·) := by
  have hle : (uniqSorted l).Sorted (· ≤ ·) :=
    List.Pairwise.sublist (List.dedup_sublist _) (List.sorted_insertionSort (· ≤ ·) l)
  have hne : (uniqSorted l).Nodup := List.nodup_dedup _
  exact (hle.and hne).imp fun h => lt_of_le_of_ne h.1 h.2

theorem sorted_eq_of_mem_iff : ∀ (l1 l2 : List ℚ), l1.Sorted (· < ·) →
    l2.Sorted (· < ·) → (∀ x, x ∈ l1 ↔ x ∈ l2) → l1 = l2 := by
  intro l1
  induction l1 with
  | nil =>
    intro l2 _ _ h
    cases l2 with
    | nil => rfl
    | cons b t2 => exact absurd ((h b).mpr (List.mem_cons_self b t2)) (List.not_mem_nil b)
  | cons a t1 ih =>
    intro l2 hs1 hs2 h
    cases l2 with
    | nil => exact absurd ((h a).mp (List.mem_cons_self a t1)) (List.not_mem_nil a)
    | cons b t2 =>
      have hab : a = b := by
        by_contra hne
        have ha2 : a ∈ t2 := by
          rcases List.mem_cons.mp ((h a).mp (List.mem_cons_self a t1)) with h1 | h1
          · exact absurd h1 hne
          · exact h1
        have hb1 : b ∈ t1 := by
          rcases List.mem_cons.mp ((h b).mpr (List.mem_cons_self b t2)) with h1 | h1
          · exact absurd h1.symm hne
          · exact h1
        have h1 : a < b := (List.sorted_cons.mp hs1).1 b hb1
        have h2 : b < a := (List.sorted_cons.mp hs2).1 a ha2
        exact absurd (lt_trans h1 h2) (lt_irrefl a)
      subst hab
      have htail : ∀ x, x ∈ t1 ↔ x ∈ t2 := by
        intro x
        constructor
        · intro hx
          rcases List.mem_cons.mp ((h x).mp (List.mem_cons_of_mem a hx)) with h1 | h1
          · exact absurd (h1 ▸ (List.sorted_cons.mp hs1).1 x hx) (lt_irrefl a)
          · exact h1
        · intro hx
          rcases List.mem_cons.mp ((h x).mpr (List.mem_cons_of_mem a hx)) with h1 | h1
          · exact absurd (h1 ▸ (List.sorted_cons.mp hs2).1 x hx) (lt_irrefl a)
          · exact h1
      rw [ih t2 (List.sorted_cons.mp hs1).2 (List.sorted_cons.mp hs2).2 htail]

theorem uniqSorted_eq_axis (l ax : List ℚ) (hax : ax.Sorted (· < ·))
    (h : ∀ x, x ∈ l ↔ x ∈ ax) : uniqSorted l = ax :=
  sorted_eq_of_mem_iff (uniqSorted l) ax (uniqSorted_sorted l) hax
    fun x => (mem_uniqSorted l x).trans (h x)

/-! ## Structure of mkTable -/

theorem mkTable_length (ps ts : List ℚ) (f : ℚ → ℚ → Fin 8 → ℚ) :
    (mkTable ps ts f).length = ps.length * ts.length := by
  induction ps with
  | nil => simp [mkTable]
  | cons a t ih =>
    show ((ts.map fun x => Row.mk a x (f a x)) ++ mkTable t ts f).length = _
    rw [List.length_append, List.length_map, ih, List.length_cons]
    ring

theorem mkTable_ne_nil (ps ts : List ℚ) (f : ℚ → ℚ → Fin 8 → ℚ)
    (hps : ps ≠ []) (hts : ts ≠ []) : mkTable ps ts f ≠ [] := by
  intro h
  have := mkTable_length ps ts f
  rw [h] at this
  simp only [List.length_nil] at this
  rcases Nat.mul_eq_zero.mp this.symm with h1 | h1
  · exact hps (List.length_eq_zero.mp h1)
  · exact hts (List.length_eq_zero.mp h1)

theorem mem_mkTable (ps ts : List ℚ) (f : ℚ → ℚ → Fin 8 → ℚ) (r : Row) :
    r ∈ mkTable ps ts f ↔ ∃ p ∈ ps, ∃ t ∈ ts, r = ⟨p, t, f p t⟩ := by
  unfold mkTable
  rw [List.mem_flatMap]
  constructor
  · rintro ⟨p, hp, hr⟩
    rcases List.mem_map.mp hr with ⟨t, ht, rfl⟩
    exact ⟨p, hp, t, ht, rfl⟩
  · rintro ⟨p, hp, t, ht, rfl⟩
    exact ⟨p, hp, List.mem_map.mpr ⟨t, ht, rfl⟩⟩

theorem mkTable_get? (ps ts : List ℚ) (f : ℚ → ℚ → Fin 8 → ℚ) :
    ∀ (q r : ℕ), q < ps.length → r < ts.length →
      (mkTable ps ts f).get? (q * ts.length + r) =
        some ⟨ps.getD q 0, ts.getD r 0, f (ps.getD q 0) (ts.getD r 0)⟩ := by
  induction ps with
  | nil => intro q r hq _; exact absurd hq (by simp)
  | cons a t ih =>
    intro q r hq hr
    show ((ts.map fun x => Row.mk a x (f a x)) ++ mkTable t ts f).get? _ = _
    cases q with
    | zero =>
      rw [Nat.zero_mul, Nat.zero_add,
        List.get?_append (by rw [List.length_map]; exact hr),
        List.get?_map, List.get?_eq_get hr, getD_eq_get ts r hr]
      rfl
    | succ m =>
      have hlen : (ts.map fun x => Row.mk a x (f a x)).length ≤ (m + 1) * ts.length + r := by
        rw [List.length_map]
        calc ts.length ≤ (m + 1) * ts.length := by
              calc ts.length = 1 * ts.length := (one_mul _).symm
                _ ≤ (m + 1) * ts.length := Nat.mul_le_mul_right _ (by omega)
          _ ≤ (m + 1) * ts.length + r := Nat.le_add_right _ _
      rw [List.get?_append_right hlen]
      have harith : (m + 1) * ts.length + r - (ts.map fun x => Row.mk a x (f a x)).length
          = m * ts.length + r := by
        rw [List.length_map]
        have : (m + 1) * ts.length = m * ts.length + ts.length := by ring
        omega
      rw [harith]
      exact ih m r (by simpa using hq) hr

theorem Pcol_get? (ps ts : List ℚ) (f : ℚ → ℚ → Fin 8 → ℚ)
    (q r : ℕ) (hq : q < ps.length) (hr : r < ts.length) :
    ((mkTable ps ts f).map (·.p)).get? (q * ts.length + r) = some (ps.getD q 0) := by
  rw [List.get?_map, mkTable_get? ps ts f q r hq hr]
  rfl

theorem Tcol_get? (ps ts : List ℚ) (f : ℚ → ℚ → Fin 8 → ℚ)
    (q r : ℕ) (hq : q < ps.length) (hr : r < ts.length) :
    ((mkTable ps ts f).map (·.t)).get? (q * ts.length + r) = some (ts.getD r 0) := by
  rw [List.get?_map, mkTable_get? ps ts f q r hq hr]
  rfl

theorem mem_Pcol (ps ts : List ℚ) (f : ℚ → ℚ → Fin 8 → ℚ) (hts : ts ≠ [])
    (x : ℚ) : x ∈ (mkTable ps ts f).map (·.p) ↔ x ∈ ps := by
  rw [List.mem_map]
  constructor
  · rintro ⟨r, hr, rfl⟩
    rcases (mem_mkTable ps ts f r).mp hr with ⟨p, hp, t, ht, rfl⟩
    exact hp
  · intro hx
    rcases List.exists_mem_of_ne_nil ts hts with ⟨t, ht⟩
    exact ⟨⟨x, t, f x t⟩, (mem_mkTable ps ts f _).mpr ⟨x, hx, t, ht, rfl⟩, rfl⟩

theorem mem_Tcol (ps ts : List ℚ) (f : ℚ → ℚ → Fin 8 → ℚ) (hps : ps ≠ [])
    (x : ℚ) : x ∈ (mkTable ps ts f).map (·.t) ↔ x ∈ ts := by
  rw [List.mem_map]
  constructor
  · rintro ⟨r, hr, rfl⟩
    rcases (mem_mkTable ps ts f r).mp hr with ⟨p, hp, t, ht, rfl⟩
    exact ht
  · intro hx
    rcases List.exists_mem_of_ne_nil ps hps with ⟨p, hp⟩
    exact ⟨⟨p, x, f p x⟩, (mem_mkTable ps ts f _).mpr ⟨p, hp, x, hx, rfl⟩, rfl⟩

/-! ## The nearest index computation -/

theorem getD_of_get?_some (l : List ℚ) (i : ℕ) (x : ℚ)
    (h : l.get? i = some x) : l.getD i 0 = x := by
  rw [List.getD_eq_get? l i, h]
  rfl

theorem findIdx_spec (p : ℚ → Bool) : ∀ (l : List ℚ), (∃ x ∈ l, p x = true) →
    l.findIdx p < l.length ∧ p (l.getD (l.findIdx p) 0) = true ∧
    ∀ i, i < l.findIdx p → p (l.getD i 0) = false := by
  intro l
  induction l with
  | nil => rintro ⟨x, hx, _⟩; exact absurd hx (List.not_mem_nil x)
  | cons a t ih =>
    rintro ⟨x, hx, hpx⟩
    by_cases hpa : p a = true
    · have h0 : (a :: t).findIdx p = 0 := by
        rw [List.findIdx_cons, hpa]
        rfl
      refine ⟨by simp [h0], ?_, ?_⟩
      · rw [h0]
        exact hpa
      · intro i hi
        rw [h0] at hi
        exact absurd hi (Nat.not_lt_zero i)
    · have hpa2 : p a = false := by
        cases h : p a with
        | false => rfl
        | true => exact absurd h hpa
      have hxt : x ∈ t := by
        rcases List.mem_cons.mp hx with rfl | h
        · exact absurd hpx hpa
        · exact h
      obtain ⟨ih1, ih2, ih3⟩ := ih ⟨x, hxt, hpx⟩
      have hstep : (a :: t).findIdx p = t.findIdx p + 1 := by
        rw [List.findIdx_cons, hpa2]
        rfl
      refine ⟨by simpa [hstep] using ih1, ?_, ?_⟩
      · rw [hstep]
        exact ih2
      · intro i hi
        rw [hstep] at hi
        cases i with
        | zero => exact hpa2
        | succ k => exact ih3 k (by omega)

theorem nearestIdx_spec (l : List ℚ) (hl : l ≠ []) (v : ℚ) :
    nearestIdx l v < l.length ∧
    |l.getD (nearestIdx l v) 0 - v| = listMin (l.map fun y => |y - v|) ∧
    ∀ i, i < nearestIdx l v →
      |l.getD i 0 - v| ≠ listMin (l.map fun y => |y - v|) := by
  have hex : ∃ x ∈ l, (fun x => decide (|x - v| = listMin (l.map fun y => |y - v|))) x = true := by
    have hmem := listMin_mem (l.map fun y => |y - v|) (by simpa using hl)
    rcases List.mem_map.mp hmem with ⟨y, hy, hyeq⟩
    exact ⟨y, hy, decide_eq_true_eq.mpr hyeq⟩
  obtain ⟨h1, h2, h3⟩ := findIdx_spec _ l hex
  exact ⟨h1, decide_eq_true_eq.mp h2,
    fun i hi => of_decide_eq_false (h3 i hi)⟩

theorem abs_dist_nonneg_min (l : List ℚ) (hl : l ≠ []) (v : ℚ) :
    0 ≤ listMin (l.map fun y => |y - v|) := by
  have hmem := listMin_mem (l.map fun y => |y - v|) (by simpa using hl)
  rcases List.mem_map.mp hmem with ⟨y, _, hyeq⟩
  rw [← hyeq]
  exact abs_nonneg _

theorem nearestIdx_node (l : List ℚ) (hs : l.Sorted (· < ·)) (i : ℕ)
    (hi : i < l.length) : nearestIdx l (l.getD i 0) = i := by
  have hl : l ≠ [] := by
    intro h
    rw [h] at hi
    exact absurd hi (by simp)
  have hzero : listMin (l.map fun y => |y - l.getD i 0|) = 0 := by
    refine le_antisymm ?_ (abs_dist_nonneg_min l hl _)
    have : (0 : ℚ) ∈ l.map fun y => |y - l.getD i 0| := by
      refine List.mem_map.mpr ⟨l.getD i 0, getD_mem l i hi, by simp⟩
    exact listMin_le _ 0 this
  apply findIdx_eq_of _ l i hi
  · rw [hzero]
    exact decide_eq_true_eq.mpr (by simp)
  · intro k hk
    rw [hzero]
    refine decide_eq_false ?_
    have hlt : l.getD k 0 < l.getD i 0 := sorted_getD_lt l hs k i hk hi
    intro habs
    exact absurd (sub_eq_zero.mp (abs_eq_zero.mp habs)) (ne_of_lt hlt)

theorem dists_congr (l1 l2 : List ℚ) (h1 : l1 ≠ []) (h2 : l2 ≠ [])
    (h : ∀ x, x ∈ l1 ↔ x ∈ l2) (v : ℚ) :
    listMin (l1.map fun y => |y - v|) = listMin (l2.map fun y => |y - v|) := by
  refine listMin_congr _ _ (by simpa using h1) (by simpa using h2) ?_
  intro x
  constructor
  · intro hx
    rcases List.mem_map.mp hx with ⟨y, hy, rfl⟩
    exact List.mem_map.mpr ⟨y, (h y).mp hy, rfl⟩
  · intro hx
    rcases List.mem_map.mp hx with ⟨y, hy, rfl⟩
    exact List.mem_map.mpr ⟨y, (h y).mpr hy, rfl⟩

theorem nearestIdx_Pcol (ps ts : List ℚ) (f : ℚ → ℚ → Fin 8 → ℚ)
    (hps : ps ≠ []) (hts : ts ≠ []) (v : ℚ) :
    nearestIdx ((mkTable ps ts f).map (·.p)) v = nearestIdx ps v * ts.length := by
  set m := ts.length with hm
  have hmpos : 0 < m := List.length_pos.mpr hts
  obtain ⟨hk, hkmin, hkfirst⟩ := nearestIdx_spec ps hps v
  set k := nearestIdx ps v with hkdef
  have htne : mkTable ps ts f ≠ [] := mkTable_ne_nil ps ts f hps hts
  have hPlen : ((mkTable ps ts f).map (·.p)).length = ps.length * m := by
    rw [List.length_map, mkTable_length]
  have hcongr := dists_congr ((mkTable ps ts f).map (·.p)) ps
    (by simpa using htne) hps (mem_Pcol ps ts f hts) v
  apply findIdx_eq_of
  · rw [hPlen]
    exact (Nat.mul_lt_mul_right hmpos).mpr hk
  · have hget : ((mkTable ps ts f).map (·.p)).getD (k * m) 0 = ps.getD k 0 :=
      getD_of_get?_some _ _ _ (by simpa using Pcol_get? ps ts f k 0 hk hmpos)
    rw [hget, hcongr]
    exact decide_eq_true_eq.mpr hkmin
  · intro idx hidx
    have hq : idx / m < k := (Nat.div_lt_iff_lt_mul hmpos).mpr hidx
    have hqn : idx / m < ps.length := lt_trans hq hk
    have hr : idx % m < m := Nat.mod_lt idx hmpos
    have hget : ((mkTable ps ts f).map (·.p)).getD idx 0 = ps.getD (idx / m) 0 := by
      refine getD_of_get?_some _ _ _ ?_
      have := Pcol_get? ps ts f (idx / m) (idx % m) hqn hr
      have hdm : idx / m * ts.length + idx % m = idx := by
        rw [Nat.mul_comm]
        exact Nat.div_add_mod idx m
      rwa [hdm] at this
    rw [hget, hcongr]
    exact decide_eq_false (hkfirst (idx / m) hq)

theorem nearestIdx_Tcol (ps ts : List ℚ) (f : ℚ → ℚ → Fin 8 → ℚ)
    (hps : ps ≠ []) (hts : ts ≠ []) (v : ℚ) :
    nearestIdx ((mkTable ps ts f).map (·.t)) v = nearestIdx ts v := by
  set m := ts.length with hm
  have hmpos : 0 < m := List.length_pos.mpr hts
  have hnpos : 0 < ps.length := List.length_pos.mpr hps
  obtain ⟨hj, hjmin, hjfirst⟩ := nearestIdx_spec ts hts v
  set j := nearestIdx ts v with hjdef
  have htne : mkTable ps ts f ≠ [] := mkTable_ne_nil ps ts f hps hts
  have hcongr := dists_congr ((mkTable ps ts f).map (·.t)) ts
    (by simpa using htne) hts (mem_Tcol ps ts f hps) v
  apply findIdx_eq_of
  · rw [List.length_map, mkTable_length]
    calc j < m := hj
      _ = 1 * m := (one_mul m).symm
      _ ≤ ps.length * m := Nat.mul_le_mul_right m hnpos
  · have hget : ((mkTable ps ts f).map (·.t)).getD j 0 = ts.getD j 0 := by
      refine getD_of_get?_some _ _ _ ?_
      have := Tcol_get? ps ts f 0 j hnpos hj
      rwa [Nat.zero_mul, Nat.zero_add] at this
    rw [hget, hcongr]
    exact decide_eq_true_eq.mpr hjmin
  · intro idx hidx
    have hidxm : idx < m := lt_trans hidx hj
    have hget : ((mkTable ps ts f).map (·.t)).getD idx 0 = ts.getD idx 0 := by
      refine getD_of_get?_some _ _ _ ?_
      have := Tcol_get? ps ts f 0 idx hnpos hidxm
      rwa [Nat.zero_mul, Nat.zero_add] at this
    rw [hget, hcongr]
    exact decide_eq_false (hjfirst idx hidx)

/-! ## Axis extremes of the table columns -/

theorem headD_mem (l : List ℚ) (h : l ≠ []) : l.headD 0 ∈ l := by
  cases l with
  | nil => exact absurd rfl h
  | cons a t => exact List.mem_cons_self a t

theorem Pcol_min (ps ts : List ℚ) (f : ℚ → ℚ → Fin 8 → ℚ)
    (hpss : ps.Sorted (· < ·)) (hps : ps ≠ []) (hts : ts ≠ []) :
    listMin ((mkTable ps ts f).map (·.p)) = ps.headD 0 := by
  have hne : (mkTable ps ts f).map (·.p) ≠ [] := by
    simpa using mkTable_ne_nil ps ts f hps hts
  refine le_antisymm ?_ ?_
  · exact listMin_le _ _ ((mem_Pcol ps ts f hts _).mpr (headD_mem ps hps))
  · exact sorted_headD_le ps hpss _
      ((mem_Pcol ps ts f hts _).mp (listMin_mem _ hne))

theorem Pcol_max (ps ts : List ℚ) (f : ℚ → ℚ → Fin 8 → ℚ)
    (hpss : ps.Sorted (· < ·)) (hps : ps ≠ []) (hts : ts ≠ []) :
    listMax ((mkTable ps ts f).map (·.p)) = ps.getLastD 0 := by
  have hne : (mkTable ps ts f).map (·.p) ≠ [] := by
    simpa using mkTable_ne_nil ps ts f hps hts
  refine le_antisymm ?_ ?_
  · exact sorted_le_getLastD ps hpss _
      ((mem_Pcol ps ts f hts _).mp (listMax_mem _ hne))
  · exact listMax_ge _ _ ((mem_Pcol ps ts f hts _).mpr (getLastD_mem_gen ps 0 hps))

theorem Tcol_min (ps ts : List ℚ) (f : ℚ → ℚ → Fin 8 → ℚ)
    (htss : ts.Sorted (· < ·)) (hps : ps ≠ []) (hts : ts ≠ []) :
    listMin ((mkTable ps ts f).map (·.t)) = ts.headD 0 := by
  have hne : (mkTable ps ts f).map (·.t) ≠ [] := by
    simpa using mkTable_ne_nil ps ts f hps hts
  refine le_antisymm ?_ ?_
  · exact listMin_le _ _ ((mem_Tcol ps ts f hps _).mpr (headD_mem ts hts))
  · exact sorted_headD_le ts htss _
      ((mem_Tcol ps ts f hps _).mp (listMin_mem _ hne))

theorem Tcol_max (ps ts : List ℚ) (f : ℚ → ℚ → Fin 8 → ℚ)
    (htss : ts.Sorted (· < ·)) (hps : ps ≠ []) (hts : ts ≠ []) :
    listMax ((mkTable ps ts f).map (·.t)) = ts.getLastD 0 := by
  have hne : (mkTable ps ts f).map (·.t) ≠ [] := by
    simpa using mkTable_ne_nil ps ts f hps hts
  refine le_antisymm ?_ ?_
  · exact sorted_le_getLastD ts htss _
      ((mem_Tcol ps ts f hps _).mp (listMax_mem _ hne))
  · exact listMax_ge _ _ ((mem_Tcol ps ts f hps _).mpr (getLastD_mem_gen ts 0 hts))

theorem uniq_Tcol (ps ts : List ℚ) (f : ℚ → ℚ → Fin 8 → ℚ)
    (htss : ts.Sorted (· < ·)) (hps : ps ≠ []) :
    uniqSorted ((mkTable ps ts f).map (·.t)) = ts :=
  uniqSorted_eq_axis _ ts htss (mem_Tcol ps ts f hps)

theorem pstep_eq (ps ts : List ℚ) (f : ℚ → ℚ → Fin 8 → ℚ)
    (htss : ts.Sorted (· < ·)) (hps : ps ≠ []) :
    (uniqSorted ((mkTable ps ts f).map (·.t))).length = ts.length := by
  rw [uniq_Tcol ps ts f htss hps]

/-! ## Evaluating the bound finding steps on a well formed table -/

theorem pbound_node (ps ts : List ℚ) (f : ℚ → ℚ → Fin 8 → ℚ)
    (hpss : ps.Sorted (· < ·)) (htss : ts.Sorted (· < ·))
    (hps : ps ≠ []) (hts : ts ≠ []) (i : ℕ) (hi : i < ps.length) :
    pbound (mkTable ps ts f) (ps.getD i 0) =
      some (none, ps.getD (if i = 0 then ps.length - 1 else i - 1) 0,
        ps.getD i 0) := by
  have hmpos : 0 < ts.length := List.length_pos.mpr hts
  have hnpos : 0 < ps.length := List.length_pos.mpr hps
  have hlen : ((mkTable ps ts f).map (·.p)).length = ps.length * ts.length := by
    rw [List.length_map, mkTable_length]
  have h1 : ¬ ps.getD i 0 < listMin ((mkTable ps ts f).map (·.p)) := by
    rw [Pcol_min ps ts f hpss hps hts]
    exact not_lt.mpr (sorted_headD_le ps hpss _ (getD_mem ps i hi))
  have h2 : ¬ listMax ((mkTable ps ts f).map (·.p)) < ps.getD i 0 := by
    rw [Pcol_max ps ts f hpss hps hts]
    exact not_lt.mpr (sorted_le_getLastD ps hpss _ (getD_mem ps i hi))
  have hnear : nearestIdx ((mkTable ps ts f).map (·.p)) (ps.getD i 0)
      = i * ts.length := by
    rw [nearestIdx_Pcol ps ts f hps hts, nearestIdx_node ps hpss i hi]
  have hget0 : pyGet? ((mkTable ps ts f).map (·.p)) ((i * ts.length : ℕ) : ℤ)
      = some (ps.getD i 0) := by
    rw [pyGet?_nat]
    have := Pcol_get? ps ts f i 0 hi hmpos
    rwa [Nat.add_zero] at this
  unfold pbound
  rw [if_neg h1, if_neg h2, hnear, hget0]
  dsimp only
  rw [sub_self, if_neg (lt_irrefl (0 : ℚ)), pstep_eq ps ts f htss hps]
  by_cases hi0 : i = 0
  · subst hi0
    have hsub : ((ps.length - 1) * ts.length : ℕ)
        = ps.length * ts.length - ts.length := by
      rw [Nat.sub_mul, Nat.one_mul]
    have hmle : ts.length ≤ ps.length * ts.length := by
      calc ts.length = 1 * ts.length := (Nat.one_mul _).symm
        _ ≤ ps.length * ts.length := Nat.mul_le_mul_right _ hnpos
    have hidx : ((0 * ts.length : ℕ) : ℤ) - (ts.length : ℤ)
        = (((ps.length - 1) * ts.length : ℕ) : ℤ)
          - (((mkTable ps ts f).map (·.p)).length : ℤ) := by
      rw [hlen, hsub, Nat.cast_sub hmle]
      push_cast
      ring
    rw [hidx, pyGet?_negIdx _ _ (by
      rw [hlen, hsub]
      omega)]
    have hq : ps.length - 1 < ps.length := by omega
    have := Pcol_get? ps ts f (ps.length - 1) 0 hq hmpos
    rw [Nat.add_zero] at this
    rw [this, if_pos rfl]
  · have hi1 : 1 ≤ i := Nat.one_le_iff_ne_zero.mpr hi0
    have hsub : ((i - 1) * ts.length : ℕ) = i * ts.length - ts.length := by
      rw [Nat.sub_mul, Nat.one_mul]
    have hmle : ts.length ≤ i * ts.length := by
      calc ts.length = 1 * ts.length := (Nat.one_mul _).symm
        _ ≤ i * ts.length := Nat.mul_le_mul_right _ hi1
    have hidx : ((i * ts.length : ℕ) : ℤ) - (ts.length : ℤ)
        = (((i - 1) * ts.length : ℕ) : ℤ) := by
      rw [hsub, Nat.cast_sub hmle]
    rw [hidx, pyGet?_nat]
    have := Pcol_get? ps ts f (i - 1) 0 (by omega) hmpos
    rw [Nat.add_zero] at this
    rw [this, if_neg hi0]

theorem tbound_node (ps ts : List ℚ) (f : ℚ → ℚ → Fin 8 → ℚ)
    (hpss : ps.Sorted (· < ·)) (htss : ts.Sorted (· < ·))
    (hps : ps ≠ []) (hts : ts ≠ []) (j : ℕ) (hj : j < ts.length) :
    tbound (mkTable ps ts f) (ts.getD j 0) =
      some (none, ts.getD (if j = 0 then ts.length - 1 else j - 1) 0,
        ts.getD j 0) := by
  have hmpos : 0 < ts.length := List.length_pos.mpr hts
  have hnpos : 0 < ps.length := List.length_pos.mpr hps
  have hlen : ((mkTable ps ts f).map (·.t)).length = ps.length * ts.length := by
    rw [List.length_map, mkTable_length]
  have h1 : ¬ ts.getD j 0 < listMin ((mkTable ps ts f).map (·.t)) := by
    rw [Tcol_min ps ts f htss hps hts]
    exact not_lt.mpr (sorted_headD_le ts htss _ (getD_mem ts j hj))
  have h2 : ¬ listMax ((mkTable ps ts f).map (·.t)) < ts.getD j 0 := by
    rw [Tcol_max ps ts f htss hps hts]
    exact not_lt.mpr (sorted_le_getLastD ts htss _ (getD_mem ts j hj))
  have hnear : nearestIdx ((mkTable ps ts f).map (·.t)) (ts.getD j 0) = j := by
    rw [nearestIdx_Tcol ps ts f hps hts, nearestIdx_node ts htss j hj]
  have hget0 : pyGet? ((mkTable ps ts f).map (·.t)) ((j : ℕ) : ℤ)
      = some (ts.getD j 0) := by
    rw [pyGet?_nat]
    have := Tcol_get? ps ts f 0 j hnpos hj
    rwa [Nat.zero_mul, Nat.zero_add] at this
  unfold tbound
  rw [if_neg h1, if_neg h2, hnear, hget0]
  dsimp only
  rw [sub_self, if_neg (lt_irrefl (0 : ℚ))]
  by_cases hj0 : j = 0
  · subst hj0
    have hRpos : 0 < ((mkTable ps ts f).map (·.t)).length := by
      rw [hlen]
      exact Nat.mul_pos hnpos hmpos
    have hidx : ((0 : ℕ) : ℤ) - 1
        = ((((mkTable ps ts f).map (·.t)).length - 1 : ℕ) : ℤ)
          - (((mkTable ps ts f).map (·.t)).length : ℤ) := by
      omega
    rw [hidx, pyGet?_negIdx _ _ (by omega)]
    have harith : ((mkTable ps ts f).map (·.t)).length - 1
        = (ps.length - 1) * ts.length + (ts.length - 1) := by
      rw [hlen]
      have e1 : (ps.length - 1) * ts.length = ps.length * ts.length - ts.length := by
        rw [Nat.sub_mul, Nat.one_mul]
      have e2 : ts.length ≤ ps.length * ts.length := by
        calc ts.length = 1 * ts.length := (Nat.one_mul _).symm
          _ ≤ ps.length * ts.length := Nat.mul_le_mul_right _ hnpos
      omega
    rw [harith]
    have := Tcol_get? ps ts f (ps.length - 1) (ts.length - 1) (by omega) (by omega)
    rw [this]
    rfl
  · have hidx : ((j : ℕ) : ℤ) - 1 = ((j - 1 : ℕ) : ℤ) := by omega
    rw [hidx, pyGet?_nat]
    have := Tcol_get? ps ts f 0 (j - 1) hnpos (by omega)
    rw [Nat.zero_mul, Nat.zero_add] at this
    rw [this, if_neg hj0]

/-! ## Corner lookup and assembly of get_vals -/

theorem find?_corner (ps ts : List ℚ) (f : ℚ → ℚ → Fin 8 → ℚ) (a b : ℚ)
    (ha : a ∈ ps) (hb : b ∈ ts) :
    (mkTable ps ts f).find? (fun r => decide (r.p = a ∧ r.t = b))
      = some ⟨a, b, f a b⟩ := by
  have hmem : (⟨a, b, f a b⟩ : Row) ∈ mkTable ps ts f :=
    (mem_mkTable ps ts f _).mpr ⟨a, ha, b, hb, rfl⟩
  have hsome : ((mkTable ps ts f).find?
      (fun r => decide (r.p = a ∧ r.t = b))).isSome := by
    rw [List.find?_isSome]
    exact ⟨_, hmem, decide_eq_true_eq.mpr ⟨rfl, rfl⟩⟩
  obtain ⟨r, hr⟩ := Option.isSome_iff_exists.mp hsome
  have hpred0 := List.find?_some hr
  have hpred : r.p = a ∧ r.t = b := by
    simpa using hpred0
  have hrmem := List.mem_of_find?_eq_some hr
  rcases (mem_mkTable ps ts f r).mp hrmem with ⟨p, _, t, _, rfl⟩
  obtain ⟨hp, ht⟩ := hpred
  simp only at hp ht
  subst hp
  subst ht
  exact hr

theorem getVals_core (ps ts : List ℚ) (f : ℚ → ℚ → Fin 8 → ℚ)
    (pval tval : ℚ) (pw tw : Option Warn) (pl pu tl tu : ℚ)
    (hps : ps ≠ []) (hts : ts ≠ [])
    (hpb : pbound (mkTable ps ts f) pval = some (pw, pl, pu))
    (htb : tbound (mkTable ps ts f) tval = some (tw, tl, tu))
    (hpl : pl ∈ ps) (hpu : pu ∈ ps) (htl : tl ∈ ts) (htu : tu ∈ ts) :
    getVals (mkTable ps ts f) pval tval =
      some (gvOf ⟨pl, tl, f pl tl⟩ ⟨pl, tu, f pl tu⟩ ⟨pu, tl, f pu tl⟩
        ⟨pu, tu, f pu tu⟩ pw tw (norm_vals tval tu tl) (norm_vals pval pu pl)) := by
  have hne : (mkTable ps ts f).isEmpty = false := by
    rw [List.isEmpty_eq_false]
    exact mkTable_ne_nil ps ts f hps hts
  unfold getVals
  rw [hne]
  simp only [Bool.false_eq_true, if_false]
  rw [hpb, htb]
  dsimp only
  rw [find?_corner ps ts f pl tl hpl htl, find?_corner ps ts f pl tu hpl htu,
    find?_corner ps ts f pu tl hpu htl, find?_corner ps ts f pu tu hpu htu]

theorem int_linear_corner (vll vlh vhl vhh tn pn : ℚ)
    (hp : (pn = 0 ∧ vll = vhl ∧ vlh = vhh) ∨ pn = 1)
    (ht : (tn = 0 ∧ vhl = vhh) ∨ tn = 1) :
    int_linear vll vlh vhl vhh tn pn = vhh := by
  unfold int_linear
  rcases hp with ⟨hp0, he1, he2⟩ | hp1 <;> rcases ht with ⟨ht0, he3⟩ | ht1 <;>
    subst_vars <;> ring

theorem norm_vals_at_high (v lo : ℚ) :
    norm_vals v v lo = 0 ∧ lo = v ∨ norm_vals v v lo = 1 := by
  unfold norm_vals
  by_cases h : v = lo
  · exact Or.inl ⟨if_pos h, h.symm⟩
  · refine Or.inr ?_
    rw [if_neg h]
    exact div_self (sub_ne_zero.mpr h)

/-- C1: on every valid table (strictly sorted axes, complete rectangular
grid in the required row order) the point query evaluated exactly at any
grid node (including nodes on the minimum pressure and minimum
temperature edges, where the bound arithmetic wraps to a previous entry
index) returns the stored sample values of all six fields at that node,
with no interpolation error and no warning. -/
theorem corner_exactness (ps ts : List ℚ) (f : ℚ → ℚ → Fin 8 → ℚ)
    (hpss : ps.Sorted (· < ·)) (htss : ts.Sorted (· < ·))
    (hps : ps ≠ []) (hts : ts ≠ []) (i j : ℕ)
    (hi : i < ps.length) (hj : j < ts.length) :
    getVals (mkTable ps ts f) (ps.getD i 0) (ts.getD j 0) =
      some { warns := []
             vp := f (ps.getD i 0) (ts.getD j 0) 0
             vs := f (ps.getD i 0) (ts.getD j 0) 1
             vpAn := f (ps.getD i 0) (ts.getD j 0) 2
             vsAn := f (ps.getD i 0) (ts.getD j 0) 3
             vphi := f (ps.getD i 0) (ts.getD j 0) 4
             dens := f (ps.getD i 0) (ts.getD j 0) 5 } := by
  have hpb := pbound_node ps ts f hpss htss hps hts i hi
  have htb := tbound_node ps ts f hpss htss hps hts j hj
  have hplm : ps.getD (if i = 0 then ps.length - 1 else i - 1) 0 ∈ ps :=
    getD_mem ps _ (by split <;> omega)
  have htlm : ts.getD (if j = 0 then ts.length - 1 else j - 1) 0 ∈ ts :=
    getD_mem ts _ (by split <;> omega)
  rw [getVals_core ps ts f _ _ none none _ _ _ _ hps hts hpb htb hplm
    (getD_mem ps i hi) htlm (getD_mem ts j hj)]
  have hpn := norm_vals_at_high (ps.getD i 0)
    (ps.getD (if i = 0 then ps.length - 1 else i - 1) 0)
  have htn := norm_vals_at_high (ts.getD j 0)
    (ts.getD (if j = 0 then ts.length - 1 else j - 1) 0)
  have key : ∀ k : Fin 8,
      int_linear (f (ps.getD (if i = 0 then ps.length - 1 else i - 1) 0)
          (ts.getD (if j = 0 then ts.length - 1 else j - 1) 0) k)
        (f (ps.getD (if i = 0 then ps.length - 1 else i - 1) 0) (ts.getD j 0) k)
        (f (ps.getD i 0) (ts.getD (if j = 0 then ts.length - 1 else j - 1) 0) k)
        (f (ps.getD i 0) (ts.getD j 0) k)
        (norm_vals (ts.getD j 0) (ts.getD j 0)
          (ts.getD (if j = 0 then ts.length - 1 else j - 1) 0))
        (norm_vals (ps.getD i 0) (ps.getD i 0)
          (ps.getD (if i = 0 then ps.length - 1 else i - 1) 0))
        = f (ps.getD i 0) (ts.getD j 0) k := by
    intro k
    apply int_linear_corner
    · rcases hpn with ⟨h0, he⟩ | h1
      · exact Or.inl ⟨h0, by rw [he], by rw [he]⟩
      · exact Or.inr h1
    · rcases htn with ⟨h0, he⟩ | h1
      · exact Or.inl ⟨h0, by rw [he]⟩
      · exact Or.inr h1
  refine congrArg some ?_
  simp only [gvOf, key]
  rfl

unseal Rat.sub Rat.add Rat.mul Rat.inv in
theorem corner_exactness_witness :
    getVals rows9 1 100 =
      some { warns := []
             vp := f9 1 100 0
             vs := f9 1 100 1
             vpAn := f9 1 100 2
             vsAn := f9 1 100 3
             vphi := f9 1 100 4
             dens := f9 1 100 5 } :=
  corner_exactness [1, 2, 3] [100, 200, 300] f9 (by decide) (by decide)
    (by decide) (by decide) 0 0 (by decide) (by decide)

theorem getLastD_eq_getD : ∀ (l : List ℚ), l ≠ [] →
    l.getLastD 0 = l.getD (l.length - 1) 0 := by
  intro l
  induction l with
  | nil => intro h; exact absurd rfl h
  | cons a t ih =>
    intro _
    rw [List.getLastD_cons]
    cases t with
    | nil => rfl
    | cons b u =>
      rw [getLastD_indep (b :: u) a 0 (by simp), ih (by simp)]
      rfl

theorem pbound_interior (ps ts : List ℚ) (f : ℚ → ℚ → Fin 8 → ℚ)
    (hpss : ps.Sorted (· < ·)) (htss : ts.Sorted (· < ·))
    (hps : ps ≠ []) (hts : ts ≠ []) (v : ℚ)
    (hv1 : ps.headD 0 < v) (hv2 : v < ps.getLastD 0) :
    (ps.getD (nearestIdx ps v) 0 < v →
      nearestIdx ps v + 1 < ps.length ∧
      pbound (mkTable ps ts f) v =
        some (none, ps.getD (nearestIdx ps v) 0, ps.getD (nearestIdx ps v + 1) 0)) ∧
    (v ≤ ps.getD (nearestIdx ps v) 0 →
      1 ≤ nearestIdx ps v ∧
      pbound (mkTable ps ts f) v =
        some (none, ps.getD (nearestIdx ps v - 1) 0, ps.getD (nearestIdx ps v) 0)) := by
  have hmpos : 0 < ts.length := List.length_pos.mpr hts
  have hnpos : 0 < ps.length := List.length_pos.mpr hps
  obtain ⟨hk, _, _⟩ := nearestIdx_spec ps hps v
  have h1 : ¬ v < listMin ((mkTable ps ts f).map (·.p)) := by
    rw [Pcol_min ps ts f hpss hps hts]
    exact not_lt.mpr (le_of_lt hv1)
  have h2 : ¬ listMax ((mkTable ps ts f).map (·.p)) < v := by
    rw [Pcol_max ps ts f hpss hps hts]
    exact not_lt.mpr (le_of_lt hv2)
  have hnear : nearestIdx ((mkTable ps ts f).map (·.p)) v
      = nearestIdx ps v * ts.length := nearestIdx_Pcol ps ts f hps hts v
  have hget0 : pyGet? ((mkTable ps ts f).map (·.p))
      ((nearestIdx ps v * ts.length : ℕ) : ℤ)
      = some (ps.getD (nearestIdx ps v) 0) := by
    rw [pyGet?_nat]
    have := Pcol_get? ps ts f (nearestIdx ps v) 0 hk hmpos
    rwa [Nat.add_zero] at this
  constructor
  · intro hlow
    have hkne : nearestIdx ps v ≠ ps.length - 1 := by
      intro he
      rw [he, ← getLastD_eq_getD ps hps] at hlow
      exact absurd (lt_trans hlow hv2) (lt_irrefl _)
    have hk1 : nearestIdx ps v + 1 < ps.length := by omega
    refine ⟨hk1, ?_⟩
    unfold pbound
    rw [if_neg h1, if_neg h2, hnear, hget0]
    dsimp only
    rw [if_pos (sub_neg.mpr hlow), pstep_eq ps ts f htss hps]
    have hidx : ((nearestIdx ps v * ts.length : ℕ) : ℤ) + (ts.length : ℤ)
        = (((nearestIdx ps v + 1) * ts.length : ℕ) : ℤ) := by
      push_cast
      ring
    rw [hidx, pyGet?_nat]
    have := Pcol_get? ps ts f (nearestIdx ps v + 1) 0 hk1 hmpos
    rw [Nat.add_zero] at this
    rw [this]
  · intro hhigh
    have hk1 : 1 ≤ nearestIdx ps v := by
      rcases Nat.eq_zero_or_pos (nearestIdx ps v) with he | hpos
      · rw [he] at hhigh
        have : ps.getD 0 0 = ps.headD 0 := by
          cases ps with
          | nil => exact absurd rfl hps
          | cons a t => rfl
        rw [this] at hhigh
        exact absurd (lt_of_lt_of_le hv1 hhigh) (lt_irrefl _)
      · exact hpos
    refine ⟨hk1, ?_⟩
    unfold pbound
    rw [if_neg h1, if_neg h2, hnear, hget0]
    dsimp only
    rw [if_neg (not_lt.mpr (sub_nonneg.mpr hhigh)), pstep_eq ps ts f htss hps]
    have hsub : ((nearestIdx ps v - 1) * ts.length : ℕ)
        = nearestIdx ps v * ts.length - ts.length := by
      rw [Nat.sub_mul, Nat.one_mul]
    have hmle : ts.length ≤ nearestIdx ps v * ts.length := by
      calc ts.length = 1 * ts.length := (Nat.one_mul _).symm
        _ ≤ nearestIdx ps v * ts.length := Nat.mul_le_mul_right _ hk1
    have hidx : ((nearestIdx ps v * ts.length : ℕ) : ℤ) - (ts.length : ℤ)
        = (((nearestIdx ps v - 1) * ts.length : ℕ) : ℤ) := by
      rw [hsub, Nat.cast_sub hmle]
    rw [hidx, pyGet?_nat]
    have := Pcol_get? ps ts f (nearestIdx ps v - 1) 0 (by omega) hmpos
    rw [Nat.add_zero] at this
    rw [this]

theorem tbound_interior (ps ts : List ℚ) (f : ℚ → ℚ → Fin 8 → ℚ)
    (hpss : ps.Sorted (· < ·)) (htss : ts.Sorted (· < ·))
    (hps : ps ≠ []) (hts : ts ≠ []) (w : ℚ)
    (hw1 : ts.headD 0 < w) (hw2 : w < ts.getLastD 0) :
    (ts.getD (nearestIdx ts w) 0 < w →
      nearestIdx ts w + 1 < ts.length ∧
      tbound (mkTable ps ts f) w =
        some (none, ts.getD (nearestIdx ts w) 0, ts.getD (nearestIdx ts w + 1) 0)) ∧
    (w ≤ ts.getD (nearestIdx ts w) 0 →
      1 ≤ nearestIdx ts w ∧
      tbound (mkTable ps ts f) w =
        some (none, ts.getD (nearestIdx ts w - 1) 0, ts.getD (nearestIdx ts w) 0)) := by
  have hmpos : 0 < ts.length := List.length_pos.mpr hts
  have hnpos : 0 < ps.length := List.length_pos.mpr hps
  obtain ⟨hj, _, _⟩ := nearestIdx_spec ts hts w
  have h1 : ¬ w < listMin ((mkTable ps ts f).map (·.t)) := by
    rw [Tcol_min ps ts f htss hps hts]
    exact not_lt.mpr (le_of_lt hw1)
  have h2 : ¬ listMax ((mkTable ps ts f).map (·.t)) < w := by
    rw [Tcol_max ps ts f htss hps hts]
    exact not_lt.mpr (le_of_lt hw2)
  have hnear : nearestIdx ((mkTable ps ts f).map (·.t)) w
      = nearestIdx ts w := nearestIdx_Tcol ps ts f hps hts w
  have hget0 : pyGet? ((mkTable ps ts f).map (·.t)) ((nearestIdx ts w : ℕ) : ℤ)
      = some (ts.getD (nearestIdx ts w) 0) := by
    rw [pyGet?_nat]
    have := Tcol_get? ps ts f 0 (nearestIdx ts w) hnpos hj
    rwa [Nat.zero_mul, Nat.zero_add] at this
  constructor
  · intro hlow
    have hjne : nearestIdx ts w ≠ ts.length - 1 := by
      intro he
      rw [he, ← getLastD_eq_getD ts hts] at hlow
      exact absurd (lt_trans hlow hw2) (lt_irrefl _)
    have hj1 : nearestIdx ts w + 1 < ts.length := by omega
    refine ⟨hj1, ?_⟩
    unfold tbound
    rw [if_neg h1, if_neg h2, hnear, hget0]
    dsimp only
    rw [if_pos (sub_neg.mpr hlow)]
    have hidx : ((nearestIdx ts w : ℕ) : ℤ) + 1
        = ((nearestIdx ts w + 1 : ℕ) : ℤ) := by
      push_cast
      ring
    rw [hidx, pyGet?_nat]
    have := Tcol_get? ps ts f 0 (nearestIdx ts w + 1) hnpos hj1
    rw [Nat.zero_mul, Nat.zero_add] at this
    rw [this]
  · intro hhigh
    have hj1 : 1 ≤ nearestIdx ts w := by
      rcases Nat.eq_zero_or_pos (nearestIdx ts w) with he | hpos
      · rw [he] at hhigh
        have : ts.getD 0 0 = ts.headD 0 := by
          cases ts with
          | nil => exact absurd rfl hts
          | cons a t => rfl
        rw [this] at hhigh
        exact absurd (lt_of_lt_of_le hw1 hhigh) (lt_irrefl _)
      · exact hpos
    refine ⟨hj1, ?_⟩
    unfold tbound
    rw [if_neg h1, if_neg h2, hnear, hget0]
    dsimp only
    rw [if_neg (not_lt.mpr (sub_nonneg.mpr hhigh))]
    have hidx : ((nearestIdx ts w : ℕ) : ℤ) - 1
        = ((nearestIdx ts w - 1 : ℕ) : ℤ) := by
      omega
    rw [hidx, pyGet?_nat]
    have := Tcol_get? ps ts f 0 (nearestIdx ts w - 1) hnpos (by omega)
    rw [Nat.zero_mul, Nat.zero_add] at this
    rw [this]

/-- C2: for a query value strictly inside an axis range, the bound
finding step selects the axis entry nearest to the value (the first
nearest entry when there is a tie): if that entry is strictly below the
value it becomes the low bound and the next axis entry the high bound,
and if it is at or above the value (including an exact tie) it becomes
the high bound and the previous axis entry the low bound - applied
independently to the pressure axis and the temperature axis. -/
theorem bounds_interior_nearest (ps ts : List ℚ) (f : ℚ → ℚ → Fin 8 → ℚ)
    (hpss : ps.Sorted (· < ·)) (htss : ts.Sorted (· < ·))
    (hps : ps ≠ []) (hts : ts ≠ []) (v w : ℚ)
    (hv1 : ps.headD 0 < v) (hv2 : v < ps.getLastD 0)
    (hw1 : ts.headD 0 < w) (hw2 : w < ts.getLastD 0) :
    (∀ x ∈ ps, |ps.getD (nearestIdx ps v) 0 - v| ≤ |x - v|) ∧
    (ps.getD (nearestIdx ps v) 0 < v →
      nearestIdx ps v + 1 < ps.length ∧
      pbound (mkTable ps ts f) v =
        some (none, ps.getD (nearestIdx ps v) 0,
          ps.getD (nearestIdx ps v + 1) 0)) ∧
    (v ≤ ps.getD (nearestIdx ps v) 0 →
      1 ≤ nearestIdx ps v ∧
      pbound (mkTable ps ts f) v =
        some (none, ps.getD (nearestIdx ps v - 1) 0,
          ps.getD (nearestIdx ps v) 0)) ∧
    (∀ x ∈ ts, |ts.getD (nearestIdx ts w) 0 - w| ≤ |x - w|) ∧
    (ts.getD (nearestIdx ts w) 0 < w →
      nearestIdx ts w + 1 < ts.length ∧
      tbound (mkTable ps ts f) w =
        some (none, ts.getD (nearestIdx ts w) 0,
          ts.getD (nearestIdx ts w + 1) 0)) ∧
    (w ≤ ts.getD (nearestIdx ts w) 0 →
      1 ≤ nearestIdx ts w ∧
      tbound (mkTable ps ts f) w =
        some (none, ts.getD (nearestIdx ts w - 1) 0,
          ts.getD (nearestIdx ts w) 0)) := by
  have hminP : ∀ x ∈ ps, |ps.getD (nearestIdx ps v) 0 - v| ≤ |x - v| := by
    obtain ⟨_, hmin, _⟩ := nearestIdx_spec ps hps v
    intro x hx
    rw [hmin]
    exact listMin_le _ _ (List.mem_map.mpr ⟨x, hx, rfl⟩)
  have hminT : ∀ x ∈ ts, |ts.getD (nearestIdx ts w) 0 - w| ≤ |x - w| := by
    obtain ⟨_, hmin, _⟩ := nearestIdx_spec ts hts w
    intro x hx
    rw [hmin]
    exact listMin_le _ _ (List.mem_map.mpr ⟨x, hx, rfl⟩)
  obtain ⟨hlowP, hhighP⟩ :=
    pbound_interior ps ts f hpss htss hps hts v hv1 hv2
  obtain ⟨hlowT, hhighT⟩ :=
    tbound_interior ps ts f hpss htss hps hts w hw1 hw2
  exact ⟨hminP, hlowP, hhighP, hminT, hlowT, hhighT⟩

unseal Rat.sub Rat.add Rat.mul Rat.inv in
theorem bounds_interior_nearest_witness :
    pbound rows9 (5 / 2) = some (none, 2, 3) ∧
    tbound rows9 150 = some (none, 100, 200) := by
  have h := bounds_interior_nearest [1, 2, 3] [100, 200, 300] f9
    (by decide) (by decide) (by decide) (by decide) (5 / 2) 150
    (by decide) (by decide) (by decide) (by decide)
  constructor
  · have h2 := (h.2.1 (by decide)).2
    rw [show ([1, 2, 3] : List ℚ).getD (nearestIdx [1, 2, 3] (5 / 2)) 0 = 2
        from by decide,
      show ([1, 2, 3] : List ℚ).getD (nearestIdx [1, 2, 3] (5 / 2) + 1) 0 = 3
        from by decide] at h2
    exact h2
  · have h2 := (h.2.2.2.2.1 (by decide)).2
    rw [show ([100, 200, 300] : List ℚ).getD (nearestIdx [100, 200, 300] 150) 0 = 100
        from by decide,
      show ([100, 200, 300] : List ℚ).getD (nearestIdx [100, 200, 300] 150 + 1) 0 = 200
        from by decide] at h2
    exact h2

theorem getD_zero_eq_headD (l : List ℚ) (h : l ≠ []) :
    l.getD 0 0 = l.headD 0 := by
  cases l with
  | nil => exact absurd rfl h
  | cons a t => rfl

theorem int_linear_zero (a b c d tn : ℚ) :
    int_linear a b c d tn 0 = a + (b - a) * tn := by
  unfold int_linear
  ring

theorem int_linear_one (a b c d tn : ℚ) :
    int_linear a b c d tn 1 = c + (d - c) * tn := by
  unfold int_linear
  ring

theorem norm_vals_same (v x : ℚ) : norm_vals v x x = 0 := if_pos rfl

theorem pbound_below (ps ts : List ℚ) (f : ℚ → ℚ → Fin 8 → ℚ)
    (hpss : ps.Sorted (· < ·)) (hps : ps ≠ []) (hts : ts ≠ []) (v : ℚ)
    (hv : v < ps.headD 0) :
    pbound (mkTable ps ts f) v =
      some (some .pLow, ps.headD 0, ps.headD 0) := by
  have hmin := Pcol_min ps ts f hpss hps hts
  unfold pbound
  rw [if_pos (by rw [hmin]; exact hv), hmin]

theorem tbound_inrange (ps ts : List ℚ) (f : ℚ → ℚ → Fin 8 → ℚ)
    (hpss : ps.Sorted (· < ·)) (htss : ts.Sorted (· < ·))
    (hps : ps ≠ []) (hts : ts ≠ []) (w : ℚ)
    (hw1 : ts.headD 0 ≤ w) (hw2 : w ≤ ts.getLastD 0) :
    ∃ tl tu : ℚ, tbound (mkTable ps ts f) w = some (none, tl, tu) ∧
      tl ∈ ts ∧ tu ∈ ts := by
  have hmpos : 0 < ts.length := List.length_pos.mpr hts
  have hnpos : 0 < ps.length := List.length_pos.mpr hps
  obtain ⟨hj, _, _⟩ := nearestIdx_spec ts hts w
  have h1 : ¬ w < listMin ((mkTable ps ts f).map (·.t)) := by
    rw [Tcol_min ps ts f htss hps hts]
    exact not_lt.mpr hw1
  have h2 : ¬ listMax ((mkTable ps ts f).map (·.t)) < w := by
    rw [Tcol_max ps ts f htss hps hts]
    exact not_lt.mpr hw2
  have hnear : nearestIdx ((mkTable ps ts f).map (·.t)) w
      = nearestIdx ts w := nearestIdx_Tcol ps ts f hps hts w
  have hget0 : pyGet? ((mkTable ps ts f).map (·.t)) ((nearestIdx ts w : ℕ) : ℤ)
      = some (ts.getD (nearestIdx ts w) 0) := by
    rw [pyGet?_nat]
    have := Tcol_get? ps ts f 0 (nearestIdx ts w) hnpos hj
    rwa [Nat.zero_mul, Nat.zero_add] at this
  by_cases hd : ts.getD (nearestIdx ts w) 0 - w < 0
  · have hjne : nearestIdx ts w ≠ ts.length - 1 := by
      intro he
      rw [he, ← getLastD_eq_getD ts hts] at hd
      have := sub_neg.mp hd
      exact absurd (lt_of_le_of_lt hw2 this) (lt_irrefl _)
    have hj1 : nearestIdx ts w + 1 < ts.length := by omega
    refine ⟨ts.getD (nearestIdx ts w) 0, ts.getD (nearestIdx ts w + 1) 0, ?_,
      getD_mem ts _ hj, getD_mem ts _ hj1⟩
    unfold tbound
    rw [if_neg h1, if_neg h2, hnear, hget0]
    dsimp only
    rw [if_pos hd]
    have hidx : ((nearestIdx ts w : ℕ) : ℤ) + 1
        = ((nearestIdx ts w + 1 : ℕ) : ℤ) := by push_cast; ring
    rw [hidx, pyGet?_nat]
    have := Tcol_get? ps ts f 0 (nearestIdx ts w + 1) hnpos hj1
    rw [Nat.zero_mul, Nat.zero_add] at this
    rw [this]
  · by_cases hj0 : nearestIdx ts w = 0
    · refine ⟨ts.getD (ts.length - 1) 0, ts.getD (nearestIdx ts w) 0, ?_,
        getD_mem ts _ (by omega), getD_mem ts _ hj⟩
      unfold tbound
      rw [if_neg h1, if_neg h2, hnear, hget0]
      dsimp only
      rw [if_neg hd]
      rw [hj0]
      have hlen : ((mkTable ps ts f).map (·.t)).length = ps.length * ts.length := by
        rw [List.length_map, mkTable_length]
      have hRpos : 0 < ((mkTable ps ts f).map (·.t)).length := by
        rw [hlen]
        exact Nat.mul_pos hnpos hmpos
      have hidx : ((0 : ℕ) : ℤ) - 1
          = ((((mkTable ps ts f).map (·.t)).length - 1 : ℕ) : ℤ)
            - (((mkTable ps ts f).map (·.t)).length : ℤ) := by omega
      rw [hidx, pyGet?_negIdx _ _ (by omega)]
      have harith : ((mkTable ps ts f).map (·.t)).length - 1
          = (ps.length - 1) * ts.length + (ts.length - 1) := by
        rw [hlen]
        have e1 : (ps.length - 1) * ts.length
            = ps.length * ts.length - ts.length := by
          rw [Nat.sub_mul, Nat.one_mul]
        have e2 : ts.length ≤ ps.length * ts.length := by
          calc ts.length = 1 * ts.length := (Nat.one_mul _).symm
            _ ≤ ps.length * ts.length := Nat.mul_le_mul_right _ hnpos
        omega
      rw [harith]
      have := Tcol_get? ps ts f (ps.length - 1) (ts.length - 1)
        (by omega) (by omega)
      rw [this]
    · refine ⟨ts.getD (nearestIdx ts w - 1) 0, ts.getD (nearestIdx ts w) 0, ?_,
        getD_mem ts _ (by omega), getD_mem ts _ hj⟩
      unfold tbound
      rw [if_neg h1, if_neg h2, hnear, hget0]
      dsimp only
      rw [if_neg hd]
      have hidx : ((nearestIdx ts w : ℕ) : ℤ) - 1
          = ((nearestIdx ts w - 1 : ℕ) : ℤ) := by omega
      rw [hidx, pyGet?_nat]
      have := Tcol_get? ps ts f 0 (nearestIdx ts w - 1) hnpos (by omega)
      rw [Nat.zero_mul, Nat.zero_add] at this
      rw [this]

theorem pbound_above (ps ts : List ℚ) (f : ℚ → ℚ → Fin 8 → ℚ)
    (hpss : ps.Sorted (· < ·)) (hps : ps ≠ []) (hts : ts ≠ []) (v : ℚ)
    (hv : ps.getLastD 0 < v) :
    pbound (mkTable ps ts f) v =
      some (some .pHigh, ps.getLastD 0, ps.getLastD 0) := by
  have hhl : ps.headD 0 ≤ ps.getLastD 0 :=
    sorted_le_getLastD ps hpss _ (headD_mem ps hps)
  have hmin := Pcol_min ps ts f hpss hps hts
  have hmax := Pcol_max ps ts f hpss hps hts
  unfold pbound
  rw [if_neg (by rw [hmin]; exact not_lt.mpr (le_trans hhl (le_of_lt hv))),
    if_pos (by rw [hmax]; exact hv), hmax]

theorem tbound_below (ps ts : List ℚ) (f : ℚ → ℚ → Fin 8 → ℚ)
    (htss : ts.Sorted (· < ·)) (hps : ps ≠ []) (hts : ts ≠ []) (w : ℚ)
    (hw : w < ts.headD 0) :
    tbound (mkTable ps ts f) w =
      some (some .tLow, ts.headD 0, ts.headD 0) := by
  have hmin := Tcol_min ps ts f htss hps hts
  unfold tbound
  rw [if_pos (by rw [hmin]; exact hw), hmin]

theorem tbound_above (ps ts : List ℚ) (f : ℚ → ℚ → Fin 8 → ℚ)
    (htss : ts.Sorted (· < ·)) (hps : ps ≠ []) (hts : ts ≠ []) (w : ℚ)
    (hw : ts.getLastD 0 < w) :
    tbound (mkTable ps ts f) w =
      some (some .tHigh, ts.getLastD 0, ts.getLastD 0) := by
  have hhl : ts.headD 0 ≤ ts.getLastD 0 :=
    sorted_le_getLastD ts htss _ (headD_mem ts hts)
  have hmin := Tcol_min ps ts f htss hps hts
  have hmax := Tcol_max ps ts f htss hps hts
  unfold tbound
  rw [if_neg (by rw [hmin]; exact not_lt.mpr (le_trans hhl (le_of_lt hw))),
    if_pos (by rw [hmax]; exact hw), hmax]

theorem pbound_inrange (ps ts : List ℚ) (f : ℚ → ℚ → Fin 8 → ℚ)
    (hpss : ps.Sorted (· < ·)) (htss : ts.Sorted (· < ·))
    (hps : ps ≠ []) (hts : ts ≠ []) (v : ℚ)
    (hv1 : ps.headD 0 ≤ v) (hv2 : v ≤ ps.getLastD 0) :
    ∃ pl pu : ℚ, pbound (mkTable ps ts f) v = some (none, pl, pu) ∧
      pl ∈ ps ∧ pu ∈ ps := by
  have hmpos : 0 < ts.length := List.length_pos.mpr hts
  have hnpos : 0 < ps.length := List.length_pos.mpr hps
  obtain ⟨hk, _, _⟩ := nearestIdx_spec ps hps v
  have h1 : ¬ v < listMin ((mkTable ps ts f).map (·.p)) := by
    rw [Pcol_min ps ts f hpss hps hts]
    exact not_lt.mpr hv1
  have h2 : ¬ listMax ((mkTable ps ts f).map (·.p)) < v := by
    rw [Pcol_max ps ts f hpss hps hts]
    exact not_lt.mpr hv2
  have hnear : nearestIdx ((mkTable ps ts f).map (·.p)) v
      = nearestIdx ps v * ts.length := nearestIdx_Pcol ps ts f hps hts v
  have hget0 : pyGet? ((mkTable ps ts f).map (·.p))
      ((nearestIdx ps v * ts.length : ℕ) : ℤ)
      = some (ps.getD (nearestIdx ps v) 0) := by
    rw [pyGet?_nat]
    have := Pcol_get? ps ts f (nearestIdx ps v) 0 hk hmpos
    rwa [Nat.add_zero] at this
  by_cases hd : ps.getD (nearestIdx ps v) 0 - v < 0
  · have hkne : nearestIdx ps v ≠ ps.length - 1 := by
      intro he
      rw [he, ← getLastD_eq_getD ps hps] at hd
      exact absurd (lt_of_le_of_lt hv2 (sub_neg.mp hd)) (lt_irrefl _)
    have hk1 : nearestIdx ps v + 1 < ps.length := by omega
    refine ⟨ps.getD (nearestIdx ps v) 0, ps.getD (nearestIdx ps v + 1) 0, ?_,
      getD_mem ps _ hk, getD_mem ps _ hk1⟩
    unfold pbound
    rw [if_neg h1, if_neg h2, hnear, hget0]
    dsimp only
    rw [if_pos hd, pstep_eq ps ts f htss hps]
    have hidx : ((nearestIdx ps v * ts.length : ℕ) : ℤ) + (ts.length : ℤ)
        = (((nearestIdx ps v + 1) * ts.length : ℕ) : ℤ) := by
      push_cast
      ring
    rw [hidx, pyGet?_nat]
    have := Pcol_get? ps ts f (nearestIdx ps v + 1) 0 hk1 hmpos
    rw [Nat.add_zero] at this
    rw [this]
  · by_cases hk0 : nearestIdx ps v = 0
    · refine ⟨ps.getD (ps.length - 1) 0, ps.getD (nearestIdx ps v) 0, ?_,
        getD_mem ps _ (by omega), getD_mem ps _ hk⟩
      unfold pbound
      rw [if_neg h1, if_neg h2, hnear, hget0]
      dsimp only
      rw [if_neg hd, pstep_eq ps ts f htss hps, hk0]
      have hlen : ((mkTable ps ts f).map (·.p)).length
          = ps.length * ts.length := by
        rw [List.length_map, mkTable_length]
      have hsub : ((ps.length - 1) * ts.length : ℕ)
          = ps.length * ts.length - ts.length := by
        rw [Nat.sub_mul, Nat.one_mul]
      have hmle : ts.length ≤ ps.length * ts.length := by
        calc ts.length = 1 * ts.length := (Nat.one_mul _).symm
          _ ≤ ps.length * ts.length := Nat.mul_le_mul_right _ hnpos
      have hidx : ((0 * ts.length : ℕ) : ℤ) - (ts.length : ℤ)
          = (((ps.length - 1) * ts.length : ℕ) : ℤ)
            - (((mkTable ps ts f).map (·.p)).length : ℤ) := by
        rw [hlen, hsub, Nat.cast_sub hmle]
        push_cast
        ring
      rw [hidx, pyGet?_negIdx _ _ (by
        rw [hlen, hsub]
        omega)]
      have := Pcol_get? ps ts f (ps.length - 1) 0 (by omega) hmpos
      rw [Nat.add_zero] at this
      rw [this]
    · have hk1 : 1 ≤ nearestIdx ps v := Nat.one_le_iff_ne_zero.mpr hk0
      refine ⟨ps.getD (nearestIdx ps v - 1) 0, ps.getD (nearestIdx ps v) 0, ?_,
        getD_mem ps _ (by omega), getD_mem ps _ hk⟩
      unfold pbound
      rw [if_neg h1, if_neg h2, hnear, hget0]
      dsimp only
      rw [if_neg hd, pstep_eq ps ts f htss hps]
      have hsub : ((nearestIdx ps v - 1) * ts.length : ℕ)
          = nearestIdx ps v * ts.length - ts.length := by
        rw [Nat.sub_mul, Nat.one_mul]
      have hmle : ts.length ≤ nearestIdx ps v * ts.length := by
        calc ts.length = 1 * ts.length := (Nat.one_mul _).symm
          _ ≤ nearestIdx ps v * ts.length := Nat.mul_le_mul_right _ hk1
      have hidx : ((nearestIdx ps v * ts.length : ℕ) : ℤ) - (ts.length : ℤ)
          = (((nearestIdx ps v - 1) * ts.length : ℕ) : ℤ) := by
        rw [hsub, Nat.cast_sub hmle]
      rw [hidx, pyGet?_nat]
      have := Pcol_get? ps ts f (nearestIdx ps v - 1) 0 (by omega) hmpos
      rw [Nat.add_zero] at this
      rw [this]

theorem int_linear_pselect (a b c d tn pn A B : ℚ)
    (h : (pn = 0 ∧ a = A ∧ b = B) ∨ (pn = 1 ∧ c = A ∧ d = B)) :
    int_linear a b c d tn pn = A + (B - A) * tn := by
  rcases h with ⟨h0, h1, h2⟩ | ⟨h0, h1, h2⟩ <;> subst_vars <;>
    unfold int_linear <;> ring

theorem int_linear_tselect (a b c d tn pn C D : ℚ)
    (h : (tn = 0 ∧ a = C ∧ c = D) ∨ (tn = 1 ∧ b = C ∧ d = D)) :
    int_linear a b c d tn pn = C + (D - C) * pn := by
  rcases h with ⟨h0, h1, h2⟩ | ⟨h0, h1, h2⟩ <;> subst_vars <;>
    unfold int_linear <;> ring

theorem lin1_select (A B tn V : ℚ)
    (h : (tn = 0 ∧ A = V) ∨ (tn = 1 ∧ B = V)) : A + (B - A) * tn = V := by
  rcases h with ⟨h0, h1⟩ | ⟨h0, h1⟩ <;> subst_vars <;> ring

theorem corner_blend_eq (v : ℚ → ℚ → ℚ)
    (pl1 pu1 tl1 tu1 pl2 pu2 tl2 tu2 tn1 pn1 tn2 pn2 : ℚ)
    (hP : (pl1 = pl2 ∧ pu1 = pu2 ∧ pn1 = pn2) ∨
      ∃ P, ((pn1 = 0 ∧ pl1 = P) ∨ (pn1 = 1 ∧ pu1 = P)) ∧
        ((pn2 = 0 ∧ pl2 = P) ∨ (pn2 = 1 ∧ pu2 = P)))
    (hT : (tl1 = tl2 ∧ tu1 = tu2 ∧ tn1 = tn2) ∨
      ∃ T, ((tn1 = 0 ∧ tl1 = T) ∨ (tn1 = 1 ∧ tu1 = T)) ∧
        ((tn2 = 0 ∧ tl2 = T) ∨ (tn2 = 1 ∧ tu2 = T))) :
    int_linear (v pl1 tl1) (v pl1 tu1) (v pu1 tl1) (v pu1 tu1) tn1 pn1
      = int_linear (v pl2 tl2) (v pl2 tu2) (v pu2 tl2) (v pu2 tu2) tn2 pn2 := by
  have tsel : ∀ (pl pu tl tu tn pn T : ℚ),
      (tn = 0 ∧ tl = T) ∨ (tn = 1 ∧ tu = T) →
      int_linear (v pl tl) (v pl tu) (v pu tl) (v pu tu) tn pn
        = v pl T + (v pu T - v pl T) * pn := by
    intro pl pu tl tu tn pn T h
    refine int_linear_tselect _ _ _ _ _ _ _ _ ?_
    rcases h with ⟨h0, h1⟩ | ⟨h0, h1⟩
    · exact Or.inl ⟨h0, by rw [h1], by rw [h1]⟩
    · exact Or.inr ⟨h0, by rw [h1], by rw [h1]⟩
  have psel : ∀ (pl pu tl tu tn pn P : ℚ),
      (pn = 0 ∧ pl = P) ∨ (pn = 1 ∧ pu = P) →
      int_linear (v pl tl) (v pl tu) (v pu tl) (v pu tu) tn pn
        = v P tl + (v P tu - v P tl) * tn := by
    intro pl pu tl tu tn pn P h
    refine int_linear_pselect _ _ _ _ _ _ _ _ ?_
    rcases h with ⟨h0, h1⟩ | ⟨h0, h1⟩
    · exact Or.inl ⟨h0, by rw [h1], by rw [h1]⟩
    · exact Or.inr ⟨h0, by rw [h1], by rw [h1]⟩
  rcases hP with ⟨e1, e2, e3⟩ | ⟨P, hP1, hP2⟩
  · rcases hT with ⟨e4, e5, e6⟩ | ⟨T, hT1, hT2⟩
    · rw [e1, e2, e3, e4, e5, e6]
    · rw [tsel _ _ _ _ _ _ T hT1, tsel _ _ _ _ _ _ T hT2, e1, e2, e3]
  · rcases hT with ⟨e4, e5, e6⟩ | ⟨T, hT1, hT2⟩
    · rw [psel _ _ _ _ _ _ P hP1, psel _ _ _ _ _ _ P hP2, e4, e5, e6]
    · calc int_linear (v pl1 tl1) (v pl1 tu1) (v pu1 tl1) (v pu1 tu1) tn1 pn1
          = v P tl1 + (v P tu1 - v P tl1) * tn1 := psel _ _ _ _ _ _ P hP1
        _ = v P T := by
            refine lin1_select _ _ _ _ ?_
            rcases hT1 with ⟨h0, h1⟩ | ⟨h0, h1⟩
            · exact Or.inl ⟨h0, by rw [h1]⟩
            · exact Or.inr ⟨h0, by rw [h1]⟩
        _ = v P tl2 + (v P tu2 - v P tl2) * tn2 := by
            refine (lin1_select _ _ _ _ ?_).symm
            rcases hT2 with ⟨h0, h1⟩ | ⟨h0, h1⟩
            · exact Or.inl ⟨h0, by rw [h1]⟩
            · exact Or.inr ⟨h0, by rw [h1]⟩
        _ = int_linear (v pl2 tl2) (v pl2 tu2) (v pu2 tl2) (v pu2 tu2) tn2 pn2 :=
            (psel _ _ _ _ _ _ P hP2).symm

theorem pbound_clamp_pack (ps ts : List ℚ) (f : ℚ → ℚ → Fin 8 → ℚ)
    (hpss : ps.Sorted (· < ·)) (htss : ts.Sorted (· < ·))
    (hps : ps ≠ []) (hts : ts ≠ []) (p : ℚ) :
    ∃ (pw1 : Option Warn) (pl1 pu1 pl2 pu2 : ℚ),
      pbound (mkTable ps ts f) p = some (pw1, pl1, pu1) ∧
      pbound (mkTable ps ts f) (clampQ p (ps.headD 0) (ps.getLastD 0))
        = some (none, pl2, pu2) ∧
      pl1 ∈ ps ∧ pu1 ∈ ps ∧ pl2 ∈ ps ∧ pu2 ∈ ps ∧
      pw1.toList = (if p < ps.headD 0 then [Warn.pLow]
        else if ps.getLastD 0 < p then [Warn.pHigh] else []) ∧
      ((pl1 = pl2 ∧ pu1 = pu2 ∧ norm_vals p pu1 pl1
          = norm_vals (clampQ p (ps.headD 0) (ps.getLastD 0)) pu2 pl2) ∨
        ∃ P, ((norm_vals p pu1 pl1 = 0 ∧ pl1 = P) ∨
            (norm_vals p pu1 pl1 = 1 ∧ pu1 = P)) ∧
          ((norm_vals (clampQ p (ps.headD 0) (ps.getLastD 0)) pu2 pl2 = 0 ∧
              pl2 = P) ∨
            (norm_vals (clampQ p (ps.headD 0) (ps.getLastD 0)) pu2 pl2 = 1 ∧
              pu2 = P))) := by
  have hnpos : 0 < ps.length := List.length_pos.mpr hps
  have hhl : ps.headD 0 ≤ ps.getLastD 0 :=
    sorted_le_getLastD ps hpss _ (headD_mem ps hps)
  by_cases hp1 : p < ps.headD 0
  · have hpc : clampQ p (ps.headD 0) (ps.getLastD 0) = ps.headD 0 := by
      unfold clampQ
      rw [min_eq_left (le_trans (le_of_lt hp1) hhl), max_eq_left (le_of_lt hp1)]
    have hpb2 : pbound (mkTable ps ts f) (ps.headD 0)
        = some (none, ps.getD (ps.length - 1) 0, ps.headD 0) := by
      have := pbound_node ps ts f hpss htss hps hts 0 hnpos
      rw [getD_zero_eq_headD ps hps] at this
      rwa [if_pos rfl] at this
    refine ⟨some .pLow, ps.headD 0, ps.headD 0, ps.getD (ps.length - 1) 0,
      ps.headD 0, pbound_below ps ts f hpss hps hts p hp1,
      by rw [hpc]; exact hpb2,
      headD_mem ps hps, headD_mem ps hps, getD_mem ps _ (by omega),
      headD_mem ps hps, by rw [if_pos hp1]; rfl, ?_⟩
    refine Or.inr ⟨ps.headD 0, Or.inl ⟨norm_vals_same p _, rfl⟩, ?_⟩
    rcases norm_vals_at_high (ps.headD 0) (ps.getD (ps.length - 1) 0) with
      ⟨h0, he⟩ | h1
    · exact Or.inl ⟨by rw [hpc]; exact h0, he⟩
    · exact Or.inr ⟨by rw [hpc]; exact h1, rfl⟩
  · by_cases hp2 : ps.getLastD 0 < p
    · have hpc : clampQ p (ps.headD 0) (ps.getLastD 0) = ps.getLastD 0 := by
        unfold clampQ
        rw [min_eq_right (le_of_lt hp2), max_eq_right hhl]
      have hpb2 : pbound (mkTable ps ts f) (ps.getLastD 0)
          = some (none, ps.getD (if ps.length - 1 = 0 then ps.length - 1
              else ps.length - 1 - 1) 0, ps.getLastD 0) := by
        have := pbound_node ps ts f hpss htss hps hts (ps.length - 1) (by omega)
        rwa [← getLastD_eq_getD ps hps] at this
      refine ⟨some .pHigh, ps.getLastD 0, ps.getLastD 0,
        ps.getD (if ps.length - 1 = 0 then ps.length - 1
          else ps.length - 1 - 1) 0, ps.getLastD 0,
        pbound_above ps ts f hpss hps hts p hp2, by rw [hpc]; exact hpb2,
        getLastD_mem_gen ps 0 hps, getLastD_mem_gen ps 0 hps,
        getD_mem ps _ (by split <;> omega), getLastD_mem_gen ps 0 hps,
        by rw [if_neg hp1, if_pos hp2]; rfl, ?_⟩
      refine Or.inr ⟨ps.getLastD 0, Or.inl ⟨norm_vals_same p _, rfl⟩, ?_⟩
      rcases norm_vals_at_high (ps.getLastD 0)
          (ps.getD (if ps.length - 1 = 0 then ps.length - 1
            else ps.length - 1 - 1) 0) with ⟨h0, he⟩ | h1
      · exact Or.inl ⟨by rw [hpc]; exact h0, he⟩
      · exact Or.inr ⟨by rw [hpc]; exact h1, rfl⟩
    · have hp1le := not_lt.mp hp1
      have hp2le := not_lt.mp hp2
      have hpc : clampQ p (ps.headD 0) (ps.getLastD 0) = p := by
        unfold clampQ
        rw [min_eq_left hp2le, max_eq_right hp1le]
      obtain ⟨pl, pu, hpb, hplm, hpum⟩ :=
        pbound_inrange ps ts f hpss htss hps hts p hp1le hp2le
      exact ⟨none, pl, pu, pl, pu, hpb, by rw [hpc]; exact hpb,
        hplm, hpum, hplm, hpum, by rw [if_neg hp1, if_neg hp2]; rfl,
        Or.inl ⟨rfl, rfl, by rw [hpc]⟩⟩

theorem tbound_clamp_pack (ps ts : List ℚ) (f : ℚ → ℚ → Fin 8 → ℚ)
    (hpss : ps.Sorted (· < ·)) (htss : ts.Sorted (· < ·))
    (hps : ps ≠ []) (hts : ts ≠ []) (t : ℚ) :
    ∃ (tw1 : Option Warn) (tl1 tu1 tl2 tu2 : ℚ),
      tbound (mkTable ps ts f) t = some (tw1, tl1, tu1) ∧
      tbound (mkTable ps ts f) (clampQ t (ts.headD 0) (ts.getLastD 0))
        = some (none, tl2, tu2) ∧
      tl1 ∈ ts ∧ tu1 ∈ ts ∧ tl2 ∈ ts ∧ tu2 ∈ ts ∧
      tw1.toList = (if t < ts.headD 0 then [Warn.tLow]
        else if ts.getLastD 0 < t then [Warn.tHigh] else []) ∧
      ((tl1 = tl2 ∧ tu1 = tu2 ∧ norm_vals t tu1 tl1
          = norm_vals (clampQ t (ts.headD 0) (ts.getLastD 0)) tu2 tl2) ∨
        ∃ T, ((norm_vals t tu1 tl1 = 0 ∧ tl1 = T) ∨
            (norm_vals t tu1 tl1 = 1 ∧ tu1 = T)) ∧
          ((norm_vals (clampQ t (ts.headD 0) (ts.getLastD 0)) tu2 tl2 = 0 ∧
              tl2 = T) ∨
            (norm_vals (clampQ t (ts.headD 0) (ts.getLastD 0)) tu2 tl2 = 1 ∧
              tu2 = T))) := by
  have hmpos : 0 < ts.length := List.length_pos.mpr hts
  have hhl : ts.headD 0 ≤ ts.getLastD 0 :=
    sorted_le_getLastD ts htss _ (headD_mem ts hts)
  by_cases ht1 : t < ts.headD 0
  · have htc : clampQ t (ts.headD 0) (ts.getLastD 0) = ts.headD 0 := by
      unfold clampQ
      rw [min_eq_left (le_trans (le_of_lt ht1) hhl), max_eq_left (le_of_lt ht1)]
    have htb2 : tbound (mkTable ps ts f) (ts.headD 0)
        = some (none, ts.getD (ts.length - 1) 0, ts.headD 0) := by
      have := tbound_node ps ts f hpss htss hps hts 0 hmpos
      rw [getD_zero_eq_headD ts hts] at this
      rwa [if_pos rfl] at this
    refine ⟨some .tLow, ts.headD 0, ts.headD 0, ts.getD (ts.length - 1) 0,
      ts.headD 0, tbound_below ps ts f htss hps hts t ht1,
      by rw [htc]; exact htb2,
      headD_mem ts hts, headD_mem ts hts, getD_mem ts _ (by omega),
      headD_mem ts hts, by rw [if_pos ht1]; rfl, ?_⟩
    refine Or.inr ⟨ts.headD 0, Or.inl ⟨norm_vals_same t _, rfl⟩, ?_⟩
    rcases norm_vals_at_high (ts.headD 0) (ts.getD (ts.length - 1) 0) with
      ⟨h0, he⟩ | h1
    · exact Or.inl ⟨by rw [htc]; exact h0, he⟩
    · exact Or.inr ⟨by rw [htc]; exact h1, rfl⟩
  · by_cases ht2 : ts.getLastD 0 < t
    · have htc : clampQ t (ts.headD 0) (ts.getLastD 0) = ts.getLastD 0 := by
        unfold clampQ
        rw [min_eq_right (le_of_lt ht2), max_eq_right hhl]
      have htb2 : tbound (mkTable ps ts f) (ts.getLastD 0)
          = some (none, ts.getD (if ts.length - 1 = 0 then ts.length - 1
              else ts.length - 1 - 1) 0, ts.getLastD 0) := by
        have := tbound_node ps ts f hpss htss hps hts (ts.length - 1) (by omega)
        rwa [← getLastD_eq_getD ts hts] at this
      refine ⟨some .tHigh, ts.getLastD 0, ts.getLastD 0,
        ts.getD (if ts.length - 1 = 0 then ts.length - 1
          else ts.length - 1 - 1) 0, ts.getLastD 0,
        tbound_above ps ts f htss hps hts t ht2, by rw [htc]; exact htb2,
        getLastD_mem_gen ts 0 hts, getLastD_mem_gen ts 0 hts,
        getD_mem ts _ (by split <;> omega), getLastD_mem_gen ts 0 hts,
        by rw [if_neg ht1, if_pos ht2]; rfl, ?_⟩
      refine Or.inr ⟨ts.getLastD 0, Or.inl ⟨norm_vals_same t _, rfl⟩, ?_⟩
      rcases norm_vals_at_high (ts.getLastD 0)
          (ts.getD (if ts.length - 1 = 0 then ts.length - 1
            else ts.length - 1 - 1) 0) with ⟨h0, he⟩ | h1
      · exact Or.inl ⟨by rw [htc]; exact h0, he⟩
      · exact Or.inr ⟨by rw [htc]; exact h1, rfl⟩
    · have ht1le := not_lt.mp ht1
      have ht2le := not_lt.mp ht2
      have htc : clampQ t (ts.headD 0) (ts.getLastD 0) = t := by
        unfold clampQ
        rw [min_eq_left ht2le, max_eq_right ht1le]
      obtain ⟨tl, tu, htb, htlm, htum⟩ :=
        tbound_inrange ps ts f hpss htss hps hts t ht1le ht2le
      exact ⟨none, tl, tu, tl, tu, htb, by rw [htc]; exact htb,
        htlm, htum, htlm, htum, by rw [if_neg ht1, if_neg ht2]; rfl,
        Or.inl ⟨rfl, rfl, by rw [htc]⟩⟩

/-- C4 amended: for every query point, the point query succeeds and
returns for every field exactly the value that the query at the point
clamped into the table domain returns, and the clamped query itself
(which may lie exactly on a domain edge) succeeds with no warning; the
original query surfaces the pressure domain warning exactly when its
pressure is strictly beyond the pressure range (low or high side) and
the temperature domain warning exactly when its temperature is strictly
beyond the temperature range, so a query exactly at a domain edge
returns the same finite clamped value but no warning.  In particular
pressure -5 on a table with minimum pressure 1 returns the field values
at pressure 1 for the queried temperature, plus a domain warning. -/
theorem clamped_edge_query (ps ts : List ℚ) (f : ℚ → ℚ → Fin 8 → ℚ)
    (hpss : ps.Sorted (· < ·)) (htss : ts.Sorted (· < ·))
    (hps : ps ≠ []) (hts : ts ≠ []) (p t : ℚ) :
    ∃ r r2 : GV,
      getVals (mkTable ps ts f) p t = some r ∧
      getVals (mkTable ps ts f) (clampQ p (ps.headD 0) (ps.getLastD 0))
        (clampQ t (ts.headD 0) (ts.getLastD 0)) = some r2 ∧
      r.warns = (if p < ps.headD 0 then [Warn.pLow]
          else if ps.getLastD 0 < p then [Warn.pHigh] else []) ++
        (if t < ts.headD 0 then [Warn.tLow]
          else if ts.getLastD 0 < t then [Warn.tHigh] else []) ∧
      r2.warns = [] ∧
      r.vp = r2.vp ∧ r.vs = r2.vs ∧ r.vpAn = r2.vpAn ∧ r.vsAn = r2.vsAn ∧
      r.vphi = r2.vphi ∧ r.dens = r2.dens := by
  obtain ⟨pw1, pl1, pu1, pl2, pu2, hpb1, hpb2, hm1, hm2, hm3, hm4, hpw, hPsel⟩ :=
    pbound_clamp_pack ps ts f hpss htss hps hts p
  obtain ⟨tw1, tl1, tu1, tl2, tu2, htb1, htb2, hn1, hn2, hn3, hn4, htw, hTsel⟩ :=
    tbound_clamp_pack ps ts f hpss htss hps hts t
  have hq1 := getVals_core ps ts f p t pw1 tw1 pl1 pu1 tl1 tu1
    hps hts hpb1 htb1 hm1 hm2 hn1 hn2
  have hq2 := getVals_core ps ts f (clampQ p (ps.headD 0) (ps.getLastD 0))
    (clampQ t (ts.headD 0) (ts.getLastD 0)) none none pl2 pu2 tl2 tu2
    hps hts hpb2 htb2 hm3 hm4 hn3 hn4
  refine ⟨_, _, hq1, hq2, ?_, rfl, ?_, ?_, ?_, ?_, ?_, ?_⟩
  · show pw1.toList ++ tw1.toList = _
    rw [hpw, htw]
  · exact corner_blend_eq (fun a b => f a b 0) pl1 pu1 tl1 tu1 pl2 pu2 tl2 tu2
      _ _ _ _ hPsel hTsel
  · exact corner_blend_eq (fun a b => f a b 1) pl1 pu1 tl1 tu1 pl2 pu2 tl2 tu2
      _ _ _ _ hPsel hTsel
  · exact corner_blend_eq (fun a b => f a b 2) pl1 pu1 tl1 tu1 pl2 pu2 tl2 tu2
      _ _ _ _ hPsel hTsel
  · exact corner_blend_eq (fun a b => f a b 3) pl1 pu1 tl1 tu1 pl2 pu2 tl2 tu2
      _ _ _ _ hPsel hTsel
  · exact corner_blend_eq (fun a b => f a b 4) pl1 pu1 tl1 tu1 pl2 pu2 tl2 tu2
      _ _ _ _ hPsel hTsel
  · exact corner_blend_eq (fun a b => f a b 5) pl1 pu1 tl1 tu1 pl2 pu2 tl2 tu2
      _ _ _ _ hPsel hTsel

unseal Rat.sub Rat.add Rat.mul Rat.inv in
theorem clamped_edge_query_witness :
    ∃ r r2 : GV,
      getVals rows9 (-5) 150 = some r ∧
      getVals rows9 1 150 = some r2 ∧
      r.warns = [Warn.pLow] ∧ r2.warns = [] ∧
      r.vp = r2.vp ∧ r.vs = r2.vs ∧ r.vpAn = r2.vpAn ∧ r.vsAn = r2.vsAn ∧
      r.vphi = r2.vphi ∧ r.dens = r2.dens := by
  obtain ⟨r, r2, h1, h2, h3, h4, h5, h6, h7, h8, h9, h10⟩ :=
    clamped_edge_query [1, 2, 3] [100, 200, 300] f9 (by decide) (by decide)
      (by decide) (by decide) (-5) 150
  rw [show clampQ (-5) (([1, 2, 3] : List ℚ).headD 0)
        (([1, 2, 3] : List ℚ).getLastD 0) = 1 from by decide,
    show clampQ 150 (([100, 200, 300] : List ℚ).headD 0)
        (([100, 200, 300] : List ℚ).getLastD 0) = 150 from by decide] at h2
  rw [show ((if (-5 : ℚ) < ([1, 2, 3] : List ℚ).headD 0 then [Warn.pLow]
        else if ([1, 2, 3] : List ℚ).getLastD 0 < (-5 : ℚ) then [Warn.pHigh]
        else []) ++
      (if (150 : ℚ) < ([100, 200, 300] : List ℚ).headD 0 then [Warn.tLow]
        else if ([100, 200, 300] : List ℚ).getLastD 0 < (150 : ℚ)
        then [Warn.tHigh] else [])) = [Warn.pLow] from by decide] at h3
  exact ⟨r, r2, h1, h2, h3, h4, h5, h6, h7, h8, h9, h10⟩

/-! ## Success conditions of the constructor reshape loop -/

theorem uniq_ne_nil (l : List ℚ) (h : l ≠ []) : uniqSorted l ≠ [] := by
  obtain ⟨x, hx⟩ := List.exists_mem_of_ne_nil l h
  intro he
  have := (mem_uniqSorted l x).mpr hx
  rw [he] at this
  exact List.not_mem_nil x this

theorem optionMapM_isSome {α β : Type} (F : α → Option β) :
    ∀ (l : List α), (l.mapM F).isSome ↔ ∀ a ∈ l, (F a).isSome := by
  intro l
  induction l with
  | nil =>
    constructor
    · intro _ a ha
      exact absurd ha (List.not_mem_nil a)
    · intro _
      rfl
  | cons a t ih =>
    rw [List.mapM_cons]
    constructor
    · intro h
      intro x hx
      rcases List.mem_cons.mp hx with rfl | hxt
      · cases hFa : F x with
        | none => rw [hFa] at h; exact absurd h (by simp)
        | some v => simp
      · cases hFa : F a with
        | none => rw [hFa] at h; exact absurd h (by simp)
        | some v =>
          rw [hFa] at h
          cases hFt : t.mapM F with
          | none => rw [hFt] at h; exact absurd h (by simp)
          | some vs => exact ih.mp (by rw [hFt]; rfl) x hxt
    · intro h
      cases hFa : F a with
      | none => exact absurd (h a (List.mem_cons_self a t)) (by rw [hFa]; simp)
      | some v =>
        cases hFt : t.mapM F with
        | none =>
          have := ih.mpr fun x hx => h x (List.mem_cons_of_mem a hx)
          rw [hFt] at this
          exact absurd this (by simp)
        | some vs => simp [hFa, hFt]

theorem sliceCol_length (rows : List Row) (m i : ℕ) (k : Fin 8) :
    (sliceCol rows m i k).length = min m (rows.length - i * m) := by
  unfold sliceCol
  rw [List.length_map, List.length_take, List.length_drop]

theorem colAssign_isSome (m : ℕ) (col : List ℚ) :
    (colAssign m col).isSome ↔ col.length = m ∨ col.length = 1 := by
  unfold colAssign
  by_cases h : col.length = m
  · rw [if_pos h]
    simp [h]
  · rw [if_neg h]
    cases col with
    | nil =>
      simp only [List.length_nil] at h ⊢
      constructor
      · intro hs; exact absurd hs (by simp)
      · rintro (h0 | h0)
        · exact absurd h0.symm (fun he => h he.symm)
        · exact absurd h0 (by omega)
    | cons x xs =>
      cases xs with
      | nil => simp
      | cons y ys =>
        constructor
        · intro hs; exact absurd hs (by simp)
        · rintro (h0 | h0)
          · exact absurd h0 h
          · simp only [List.length_cons] at h0; omega

theorem buildGrid_isSome (rows : List Row) (m n : ℕ) (hm : 1 ≤ m) (k : Fin 8) :
    (buildGrid rows m n k).isSome ↔
      ∀ i < n, i * m + m ≤ rows.length ∨ rows.length = i * m + 1 := by
  unfold buildGrid
  rw [optionMapM_isSome]
  constructor
  · intro h i hi
    have := (colAssign_isSome m _).mp (h i (List.mem_range.mpr hi))
    rw [sliceCol_length] at this
    omega
  · intro h i hi
    rw [colAssign_isSome, sliceCol_length]
    have := h i (List.mem_range.mp hi)
    omega

theorem interp2dNew_isSome (xs ys : List ℚ) (g : List (List ℚ)) :
    (interp2dNew xs ys g).isSome ↔ 2 ≤ xs.length ∧ 2 ≤ ys.length := by
  unfold interp2dNew
  split_ifs with h
  · simp only [Option.isSome_some, true_iff]
    exact h
  · simp only [Option.isSome_none, Bool.false_eq_true, false_iff]
    exact h

/-- C5 amended: construction performs no multiple-of-temperature-count
validation and raises no error of its own for a surplus of rows: loading
succeeds exactly when both axes hold at least two unique values (the
eight interp2d constructions of lines 63-71 require two points per axis)
and every pressure block slice can be assigned, that is, when for every
unique pressure index i the slice starting at row i * m either holds a
full block of m = unique temperature count rows or consists of a single
row (which numpy broadcasts); surplus rows beyond the last full block
are otherwise ignored and a failed build returns no table at all. -/
theorem load_isSome_iff (rows : List Row) (hne : rows ≠ []) :
    (load rows).isSome ↔
      2 ≤ (uniqSorted (rows.map (·.p))).length ∧
      2 ≤ (uniqSorted (rows.map (·.t))).length ∧
      ∀ i < (uniqSorted (rows.map (·.p))).length,
        i * (uniqSorted (rows.map (·.t))).length
            + (uniqSorted (rows.map (·.t))).length ≤ rows.length ∨
        rows.length = i * (uniqSorted (rows.map (·.t))).length + 1 := by
  have hm : 1 ≤ (uniqSorted (rows.map (·.t))).length := by
    have := uniq_ne_nil (rows.map (·.t)) (by simpa using hne)
    exact List.length_pos.mpr this
  unfold load
  rw [List.isEmpty_eq_false.mpr hne]
  simp only [Bool.false_eq_true, if_false]
  cases hgs : (List.finRange 8).mapM
      (buildGrid rows (uniqSorted (rows.map (·.t))).length
        (uniqSorted (rows.map (·.p))).length) with
  | none =>
    dsimp only
    constructor
    · intro h
      exact absurd h (by simp)
    · rintro ⟨_, _, hblocks⟩
      have hsome : ((List.finRange 8).mapM
          (buildGrid rows (uniqSorted (rows.map (·.t))).length
            (uniqSorted (rows.map (·.p))).length)).isSome :=
        (optionMapM_isSome _ _).mpr fun k _ =>
          (buildGrid_isSome rows _ _ hm k).mpr hblocks
      rw [hgs] at hsome
      exact absurd hsome (by simp)
  | some gs =>
    dsimp only
    have hblocks : ∀ i < (uniqSorted (rows.map (·.p))).length,
        i * (uniqSorted (rows.map (·.t))).length
            + (uniqSorted (rows.map (·.t))).length ≤ rows.length ∨
        rows.length = i * (uniqSorted (rows.map (·.t))).length + 1 := by
      have hsome : ((List.finRange 8).mapM
          (buildGrid rows (uniqSorted (rows.map (·.t))).length
            (uniqSorted (rows.map (·.p))).length)).isSome := by
        rw [hgs]
        rfl
      exact (buildGrid_isSome rows _ _ hm 0).mp
        ((optionMapM_isSome _ _).mp hsome 0 (List.mem_finRange 0))
    cases hint : (List.finRange 8).mapM
        (fun k => interp2dNew (uniqSorted (rows.map (·.p)))
          (uniqSorted (rows.map (·.t))) (gs.getD k.val [])) with
    | none =>
      dsimp only
      constructor
      · intro h
        exact absurd h (by simp)
      · rintro ⟨ha1, ha2, _⟩
        have hsome : ((List.finRange 8).mapM
            (fun k => interp2dNew (uniqSorted (rows.map (·.p)))
              (uniqSorted (rows.map (·.t))) (gs.getD k.val []))).isSome :=
          (optionMapM_isSome _ _).mpr fun k _ =>
            (interp2dNew_isSome _ _ _).mpr ⟨ha1, ha2⟩
        rw [hint] at hsome
        exact absurd hsome (by simp)
    | some u =>
      dsimp only
      constructor
      · intro _
        have hsome : ((List.finRange 8).mapM
            (fun k => interp2dNew (uniqSorted (rows.map (·.p)))
              (uniqSorted (rows.map (·.t))) (gs.getD k.val []))).isSome := by
          rw [hint]
          rfl
        have haxes := (interp2dNew_isSome _ _ _).mp
          ((optionMapM_isSome _ _).mp hsome 0 (List.mem_finRange 0))
        exact ⟨haxes.1, haxes.2, hblocks⟩
      · intro _
        rfl

unseal Rat.sub Rat.add Rat.mul Rat.inv in
theorem load_isSome_iff_witness :
    (load rows5).isSome ↔
      2 ≤ (uniqSorted (rows5.map (·.p))).length ∧
      2 ≤ (uniqSorted (rows5.map (·.t))).length ∧
      ∀ i < (uniqSorted (rows5.map (·.p))).length,
        i * (uniqSorted (rows5.map (·.t))).length
            + (uniqSorted (rows5.map (·.t))).length ≤ rows5.length ∨
        rows5.length = i * (uniqSorted (rows5.map (·.t))).length + 1 :=
  load_isSome_iff rows5 (by unfold rows5; exact List.cons_ne_nil _ _)

/-! ## Behaviour of interp_points -/

theorem exceptMapM_ok {α β γ : Type} (F : α → Except γ β) (g : α → β) :
    ∀ (l : List α), (∀ a ∈ l, F a = .ok (g a)) → l.mapM F = .ok (l.map g) := by
  intro l
  induction l with
  | nil => intro _; rfl
  | cons a t ih =>
    intro h
    rw [List.mapM_cons, h a (List.mem_cons_self a t),
      ih fun x hx => h x (List.mem_cons_of_mem a hx)]
    rfl

theorem exceptMapM_err {α β γ : Type} (F : α → Except γ β) (e : γ) :
    ∀ (l1 : List α) (x : α) (l2 : List α), (∀ a ∈ l1, ∃ v, F a = .ok v) →
      F x = .error e → (l1 ++ x :: l2).mapM F = .error e := by
  intro l1
  induction l1 with
  | nil =>
    intro x l2 _ hx
    rw [List.nil_append, List.mapM_cons, hx]
    rfl
  | cons a t ih =>
    intro x l2 h hx
    obtain ⟨v, hv⟩ := h a (List.mem_cons_self a t)
    rw [List.cons_append, List.mapM_cons, hv,
      ih x l2 (fun b hb => h b (List.mem_cons_of_mem a hb)) hx]
    rfl

theorem range_split (n k : ℕ) (hk : k < n) :
    List.range n = List.range k ++ k :: List.range' (k + 1) (n - k - 1) := by
  rw [List.range_eq_range', List.range_eq_range']
  have hcons : k :: List.range' (k + 1) (n - k - 1) = List.range' k (n - k) := by
    obtain ⟨u, hu⟩ : ∃ u, n - k = u + 1 := ⟨n - k - 1, by omega⟩
    rw [hu]
    rfl
  rw [hcons]
  have happ := List.range'_append_1 0 k (n - k)
  rw [Nat.zero_add] at happ
  rw [happ]
  congr 1
  omega

/-- C6 amended: interp_points performs no length validation and raises
no shape error of its own: when the promoted pressure sequence is no
longer than the temperature sequence the call succeeds and returns one
value per pressure, pairing the sequences index by index (surplus
temperatures are ignored); when the pressure sequence is strictly longer
the call fails with an index error at the first missing temperature; a
bare int or float scalar argument behaves exactly as the corresponding
one element list. -/
theorem interp_points_behavior (tbl : Table) (field : String)
    (c : ℕ) (grid : List (List ℚ)) (u : String)
    (hf : lookupField tbl field = some (c, grid, u))
    (pl tl : List ℚ) :
    (pl.length ≤ tl.length →
      interp_points tbl (.seq pl) (.seq tl) field =
        .ok ((List.range pl.length).map fun i =>
          sciQuery tbl.pres tbl.temp grid (pl.getD i 0) (tl.getD i 0))) ∧
    (tl.length < pl.length →
      interp_points tbl (.seq pl) (.seq tl) field = .error .indexOutOfRange) ∧
    (∀ q : ℚ, interp_points tbl (.num q) (.seq tl) field
        = interp_points tbl (.seq [q]) (.seq tl) field) ∧
    (∀ q : ℚ, interp_points tbl (.seq pl) (.num q) field
        = interp_points tbl (.seq pl) (.seq [q]) field) := by
  refine ⟨?_, ?_, fun q => rfl, fun q => rfl⟩
  · intro hle
    unfold interp_points
    rw [hf]
    refine exceptMapM_ok _ _ _ ?_
    intro i hi
    have hilt : i < tl.length := lt_of_lt_of_le (List.mem_range.mp hi) hle
    show (match (promote (.seq tl)).get? i with
      | none => Except.error TErr.indexOutOfRange
      | some t => Except.ok
          (sciQuery tbl.pres tbl.temp grid ((promote (.seq pl)).getD i 0) t)) = _
    show (match tl.get? i with
      | none => Except.error TErr.indexOutOfRange
      | some t => Except.ok
          (sciQuery tbl.pres tbl.temp grid (pl.getD i 0) t)) = _
    rw [List.get?_eq_get hilt, ← getD_eq_get tl i hilt]
  · intro hlt
    unfold interp_points
    rw [hf]
    show (List.range (promote (.seq pl)).length).mapM _ = _
    show (List.range pl.length).mapM _ = _
    rw [range_split pl.length tl.length hlt]
    refine exceptMapM_err _ _ _ _ _ ?_ ?_
    · intro i hi
      have hilt : i < tl.length := List.mem_range.mp hi
      refine ⟨sciQuery tbl.pres tbl.temp grid (pl.getD i 0) (tl.getD i 0), ?_⟩
      show (match tl.get? i with
        | none => Except.error TErr.indexOutOfRange
        | some t => Except.ok
            (sciQuery tbl.pres tbl.temp grid (pl.getD i 0) t)) = _
      rw [List.get?_eq_get hilt, ← getD_eq_get tl i hilt]
    · show (match tl.get? tl.length with
        | none => Except.error TErr.indexOutOfRange
        | some t => Except.ok
            (sciQuery tbl.pres tbl.temp grid (pl.getD tl.length 0) t)) = _
      rw [List.get?_eq_none.mpr (le_refl tl.length)]

unseal Rat.sub Rat.add Rat.mul Rat.inv in
theorem interp_points_behavior_witness :
    ((([1, 3 / 2] : List ℚ).length ≤ ([100, 150, 200] : List ℚ).length →
      interp_points tbl9 (.seq [1, 3 / 2]) (.seq [100, 150, 200]) "vp" =
        .ok ((List.range ([1, 3 / 2] : List ℚ).length).map fun i =>
          sciQuery tbl9.pres tbl9.temp (tbl9.grids.getD 0 [])
            (([1, 3 / 2] : List ℚ).getD i 0)
            (([100, 150, 200] : List ℚ).getD i 0))) ∧
    (([100, 150, 200] : List ℚ).length < ([1, 3 / 2] : List ℚ).length →
      interp_points tbl9 (.seq [1, 3 / 2]) (.seq [100, 150, 200]) "vp"
        = .error .indexOutOfRange) ∧
    (∀ q : ℚ, interp_points tbl9 (.num q) (.seq [100, 150, 200]) "vp"
        = interp_points tbl9 (.seq [q]) (.seq [100, 150, 200]) "vp") ∧
    (∀ q : ℚ, interp_points tbl9 (.seq [1, 3 / 2]) (.num q) "vp"
        = interp_points tbl9 (.seq [1, 3 / 2]) (.seq [q]) "vp")) :=
  interp_points_behavior tbl9 "vp" 2 (tbl9.grids.getD 0 []) "km/s"
    (by decide) [1, 3 / 2] [100, 150, 200]

/-! ## Claim theorems (part 1: the direct ones) -/

unseal Rat.sub Rat.add Rat.mul Rat.inv in
/-- C3: on the section 8 scenario table (axes P = 1,2,3 Pa and
T = 100,200,300 K, vp equal to 4.0, 4.2, 4.4, 4.6 at (1,100), (1,200),
(2,100), (2,200)), the point query for vp at pressure 1.5 and
temperature 150 returns exactly 4.3, the bilinear blend with both
fractions 1/2. -/
theorem scenario_bilinear_midpoint :
    Option.map GV.vp (getVals rows9 (3 / 2) 150) = some (43 / 10) := by decide

unseal Rat.sub Rat.add Rat.mul Rat.inv in
/-- C4 counterexample: a query exactly at the minimum pressure edge
(pressure 1 on the scenario table, temperature 150) succeeds with a
finite interpolated value but surfaces no domain warning, contradicting
the claim that every query at or beyond a domain edge surfaces one. -/
theorem edge_query_no_warning :
    getVals rows9 1 150 = some ⟨[], 41 / 10, 0, 0, 0, 0, 0⟩ := by decide

unseal Rat.sub Rat.add Rat.mul Rat.inv in
/-- C5 counterexample: a five row table whose unique temperature count
is 2 (row count 5 is not an exact multiple: the last pressure block has
a single row, which the numpy column assignment broadcasts) is loaded
successfully, so construction performs no
multiple-of-temperature-count validation and raises no error for it. -/
theorem load_accepts_non_multiple :
    (load rows5).isSome = true ∧
    rows5.length % (uniqSorted (rows5.map (·.t))).length ≠ 0 := by decide

unseal Rat.sub Rat.add Rat.mul Rat.inv in
/-- C6 counterexample: interp_points with a pressure list of length 1 and
a temperature list of length 2 succeeds (returning one value) instead of
raising a shape error, contradicting the claim that differing lengths
raise. -/
theorem interp_points_accepts_mismatch :
    interp_points tbl9 (.seq [1]) (.seq [100, 200]) "vp" = .ok [4] ∧
    (promote (.seq [1])).length ≠ (promote (.seq [100, 200])).length := by decide

unseal Rat.sub Rat.add Rat.mul Rat.inv in
/-- C10 counterexample: bare Python float scalars passed to
linear_interp_1d raise AttributeError on vals1.flatten() (a float has no
flatten attribute), so the call does not succeed as the claim states. -/
theorem pyfloat_scalar_fails :
    linear_interp_1d (.pyfloat 4) (.pyfloat 5) 0 1 0 = none := by decide

/-- C10 amended: numpy scalar values are accepted by linear_interp_1d:
they flatten to one element arrays and the call returns the one element
list holding the scalar linear interpolant, without raising. -/
theorem npscalar_interp_ok (a b c1 c2 cq : ℚ) :
    linear_interp_1d (.npscalar a) (.npscalar b) c1 c2 cq =
      some [a + (b - a) * ((cq - c1) / (c2 - c1))] := rfl

/-- C8: harmonic_mean_comp computes 1 / ((1/bas)*bas_fr + (1/lhz)*lhz_fr
+ (1/hzb)*hzb_fr), so mixing three copies of the same nonzero value with
fractions summing to 1 returns that value; the claim instances
harmonic_mix([v],[1.0]) and harmonic_mix([v,v],[0.5,0.5]) embed into the
three component source function by padding the fraction vector with
zeros. -/
theorem harmonic_mix_identity (v f1 f2 f3 : ℚ) (_hv : v ≠ 0)
    (hsum : f1 + f2 + f3 = 1) :
    harmonic_mean_comp v v v f1 f2 f3 = v := by
  unfold harmonic_mean_comp
  show 1 / (1 / v * f1 + 1 / v * f2 + 1 / v * f3) = v
  have h : 1 / v * f1 + 1 / v * f2 + 1 / v * f3 = 1 / v := by
    rw [← mul_add, ← mul_add, hsum, mul_one]
  rw [h, one_div_one_div]

theorem harmonic_mix_identity_witness :
    (2 : ℚ) ≠ 0 ∧ (1 / 2 : ℚ) + 1 / 2 + 0 = 1 ∧
    harmonic_mean_comp 2 2 2 (1 / 2) (1 / 2) 0 = 2 :=
  ⟨by norm_num, by norm_num,
    harmonic_mix_identity 2 (1 / 2) (1 / 2) 0 (by norm_num) (by norm_num)⟩

/-- C9: linear_interp_1d is exact at its anchors: with anchor parameters
0 and 1 and equal length value arrays, querying at 0 returns the first
value set and querying at 1 returns the second, the interpolation being
exact linear interpolation with unbounded extrapolation elsewhere. -/
theorem interp_composition_endpoints (a b : List ℚ) (h : a.length = b.length) :
    linear_interp_1d (.nparr a) (.nparr b) 0 1 0 = some a ∧
    linear_interp_1d (.nparr a) (.nparr b) 0 1 1 = some b := by
  unfold linear_interp_1d flattenPy interp1dAt
  constructor
  · simp only [h, if_true, Option.some.injEq]
    exact zipWith_left_eq _ (fun x y => by norm_num) a b h
  · simp only [h, if_true, Option.some.injEq]
    exact zipWith_right_eq _ (fun x y => by norm_num) a b h

theorem interp_composition_endpoints_witness :
    ([4, 6] : List ℚ).length = ([5, 7] : List ℚ).length ∧
    (linear_interp_1d (.nparr [4, 6]) (.nparr [5, 7]) 0 1 0 = some [4, 6] ∧
     linear_interp_1d (.nparr [4, 6]) (.nparr [5, 7]) 0 1 1 = some [5, 7]) :=
  ⟨by decide, interp_composition_endpoints [4, 6] [5, 7] (by decide)⟩

/-- C7: field lookup depends only on the lower cased name (so it is case
insensitive), succeeds exactly for the eight registry names, and a name
outside the registry makes interp_points fail with the unknown field
error (and, the embedding being pure, the table itself is untouched). -/
theorem field_lookup_spec (tbl : Table) (s1 s2 field : String) :
    (lower s1 = lower s2 → lookupField tbl s1 = lookupField tbl s2) ∧
    ((lookupField tbl field).isSome ↔ lower field ∈ fieldNames) ∧
    (lower field ∉ fieldNames →
      ∀ press temps, interp_points tbl press temps field = .error .unknownField) := by
  have hnone : ∀ s : String, lower s ∉ fieldNames → lookupField tbl s = none := by
    intro s hs
    unfold lookupField
    simp only [fieldNames, List.mem_cons, List.not_mem_nil, or_false] at hs
    push_neg at hs
    obtain ⟨h1, h2, h3, h4, h5, h6, h7, h8⟩ := hs
    simp only [h1, h2, h3, h4, h5, h6, h7, h8, if_false]
  refine ⟨fun h => ?_, ?_, fun hf press temps => ?_⟩
  · unfold lookupField
    rw [h]
  · constructor
    · intro hsome
      by_contra hmem
      rw [hnone field hmem] at hsome
      exact absurd hsome (by simp)
    · intro hmem
      unfold lookupField
      simp only [fieldNames, List.mem_cons, List.not_mem_nil, or_false] at hmem
      rcases hmem with h | h | h | h | h | h | h | h <;> simp [h]
  · unfold interp_points
    rw [hnone field hf]

unseal Rat.sub Rat.add Rat.mul Rat.inv in
theorem field_lookup_spec_witness :
    lookupField tbl9 "VP" = lookupField tbl9 "vp" ∧
    interp_points tbl9 (.seq [1]) (.seq [100]) "banana" =
      .error .unknownField :=
  ⟨(field_lookup_spec tbl9 "VP" "vp" "banana").1 (by decide),
    (field_lookup_spec tbl9 "VP" "vp" "banana").2.2 (by decide)
      (.seq [1]) (.seq [100])⟩

end Terra
